import Mathlib

/-!
IMAP utility functions (`imap/util.c`).

A shallow embedding of the routines of `imap/util.c` and the properties of
their specification.

Representation:

* A `char*` argument is the list of characters the pointer points at.  The
  end of the list stands for the terminating NUL of the C string; a NUL
  character inside the list also ends every scan, exactly as it does in C.
  `cstr` reads the C string held by such a buffer.
* A destination buffer is represented by the list of characters the routine
  stores into it, in order, without the final NUL.
* `size_t` values are natural numbers below `2 ^ w`; subtraction on them is
  `size_sub`, which wraps modulo `2 ^ w` as unsigned arithmetic does in C.
* The blocking wait of `imap_wait_keepalive` is driven by the list of reports
  its calls of `waitpid` give; its effects are the option flags and the
  sequence of calls it makes.
-/

namespace Imap

/-! ## C strings -/

/-- The C string held by a buffer: the characters before the first NUL. -/
def cstr : List Char → List Char
  | [] => []
  | c :: s => if c = '\x00' then [] else c :: cstr s

/-- Unsigned subtraction on `size_t` of width `w`: `a - b` modulo `2 ^ w`. -/
def size_sub (w a b : Nat) : Nat := (a + 2 ^ w - b % 2 ^ w) % 2 ^ w

/-! ## imap_quote_string -/

/-- The test `strchr (quote, c)` for `quote = "\"\\"` and a non-NUL `c`. -/
def isQuoteSpecial (c : Char) : Bool := c = '"' || c = '\\'

/-- The `for` loop of `imap_quote_string`: `len` is the remaining-capacity
counter (a `size_t` of width `w`), the list is what `s` points at, and the
result is the characters stored through `pt` by the loop. -/
def quote_loop (w : Nat) : Nat → List Char → List Char
  | _, [] => []
  | len, c :: s =>
    if c = '\x00' ∨ len = 0 then []
    else if isQuoteSpecial c then
      if size_sub w len 2 = 0 then []
      else '\\' :: c :: quote_loop w (size_sub w len 2) s
    else c :: quote_loop w (size_sub w len 1) s

/-- The values the counter `len` takes in the `for` loop of
`imap_quote_string`, one for each `len -= 2` and `len--`, in order. -/
def quote_len_trace (w : Nat) : Nat → List Char → List Nat
  | _, [] => []
  | len, c :: s =>
    if c = '\x00' ∨ len = 0 then []
    else if isQuoteSpecial c then
      if size_sub w len 2 = 0 then [size_sub w len 2]
      else size_sub w len 2 :: quote_len_trace w (size_sub w len 2) s
    else size_sub w len 1 :: quote_len_trace w (size_sub w len 1) s

/-- Model of `imap_quote_string (dest, slen, src)`: the characters stored
into `dest` before the final NUL.  The opening quote is stored first, `len`
starts at `slen - 2`, the loop runs, and the closing quote is stored. -/
def imap_quote_string (w slen : Nat) (src : List Char) : List Char :=
  '"' :: (quote_loop w (size_sub w slen 2) src ++ ['"'])

/-- Number of bytes `imap_quote_string` stores into `dest`, the final NUL
included. -/
def quote_bytes_written (w slen : Nat) (src : List Char) : Nat :=
  (imap_quote_string w slen src).length + 1

/-- The IMAP escaping of a text: a backslash before every `"` and `\`. -/
def escape : List Char → List Char
  | [] => []
  | c :: s => if isQuoteSpecial c then '\\' :: c :: escape s else c :: escape s

/-- Number of characters of a text that need an escaping backslash. -/
def countSpecial (s : List Char) : Nat := s.countP isQuoteSpecial

/-! ## imap_unquote_string -/

/-- The `while` loop of `imap_unquote_string`: the list is what `s` points
at, the result is the characters stored through `d`.  The write pointer `d`
stays strictly below the read pointer `s`, so no store changes a character
that is still to be read. -/
def unquote_loop : List Char → List Char
  | [] => []
  | c :: s =>
    if c = '\x00' then []
    else if c = '"' then []
    else if c = '\\' then
      match s with
      | [] => []
      | e :: t => if e = '\x00' then [] else e :: unquote_loop t
    else c :: unquote_loop s

/-- Model of `imap_unquote_string (s)`: the C string held by the buffer
after the call.  When the first character is not `"` the routine returns at
once and the buffer is unchanged. -/
def imap_unquote_string (s : List Char) : List Char :=
  match s with
  | [] => cstr s
  | c :: t => if c = '"' then unquote_loop t else cstr s

/-- Body decoder of the reference: a backslash is dropped and the character
after it, if any, is kept; an unescaped `"` ends the result; without a
closing quote the scan runs to the end of the text. -/
def decodeBody : List Char → List Char
  | [] => []
  | [c] => if c = '"' ∨ c = '\\' then [] else [c]
  | c :: e :: t =>
    if c = '"' then []
    else if c = '\\' then e :: decodeBody t
    else c :: decodeBody (e :: t)

/-- Reference decoder of the specification for `Unquote`. -/
def unquote_ref (text : List Char) : List Char :=
  if text.head? = some '"' then decodeBody text.tail else text

/-! ## imap_parse_path -/

/-- The character `*p` read through a `char*`: the head of the list, and NUL
at the end of the list (the terminator of the C string). -/
def peek : List Char → Char
  | [] => '\x00'
  | c :: _ => c

/-- The C library function `atoi` is not part of the repository; this is its
digit loop as ISO C defines it: the decimal value of the leading run of
digits. -/
def atoi_digits : Nat → List Char → Nat
  | acc, [] => acc
  | acc, c :: s =>
    if c.isDigit then atoi_digits (10 * acc + (c.toNat - '0'.toNat)) s else acc

/-- The C library predicate `isspace` in the C locale. -/
def isspace (c : Char) : Bool :=
  c = ' ' || c = '\t' || c = '\n' || c = '\x0b' || c = '\x0c' || c = '\r'

/-- The number the C library function `strtol (s, NULL, 10)` reads, before
any range check: leading white space is skipped, one optional sign is read,
and the leading run of digits is converted; anything after that run is
ignored, and the value is 0 when the run is empty. -/
def strtol_exact (s : List Char) : Int :=
  match s.dropWhile isspace with
  | [] => 0
  | c :: t =>
    if c = '-' then - (atoi_digits 0 t : Int)
    else if c = '+' then (atoi_digits 0 t : Int)
    else (atoi_digits 0 (c :: t) : Int)

/-- The range check of `strtol` for a 64-bit `long`: a value above `LONG_MAX`
is replaced by `LONG_MAX`, a value below `LONG_MIN` by `LONG_MIN`. -/
def strtol_clamp (v : Int) : Int :=
  if v > 9223372036854775807 then 9223372036854775807
  else if v < -9223372036854775808 then -9223372036854775808
  else v

/-- The conversion of a `long` to a 32-bit `int`: the value modulo `2 ^ 32`,
taken in the range from `-2 ^ 31` to `2 ^ 31 - 1`. -/
def int_of_long (v : Int) : Int := (v + 2147483648) % 4294967296 - 2147483648

/-- The C library function `atoi`, which returns an `int`.  For a value that
fits an `int` this is the value ISO C defines.  ISO C leaves the other values
undefined; the model follows the GNU C library, where `atoi (s)` is
`(int) strtol (s, NULL, 10)`, so the value wraps modulo `2 ^ 32`. -/
def atoi (s : List Char) : Int := int_of_long (strtol_clamp (strtol_exact s))

/-- The two socket kinds `imap_parse_path` stores through `socktype`; the
enumeration is declared in a header outside `imap/util.c`. -/
inductive SockType where
  | M_NEW_SOCKET
  | M_NEW_SSL_SOCKET
  deriving DecidableEq, Repr

/-- Modelled from the spec: `IMAP_SSL_PORT` is defined in `imap_private.h`,
which is not in the source tree; the specification gives 993 as the TLS
default port. -/
def IMAP_SSL_PORT : Int := 993

/-- What a successful `imap_parse_path` leaves behind: the C string in
`host`, the values stored through `port` and `socktype` (`none` when the
caller passed a null pointer), and the text `*mbox` points at. -/
structure ParseResult where
  host : List Char
  port : Option Int
  socktype : Option SockType
  mbox : List Char
  deriving DecidableEq, Repr

/-- End test of the host loop: `*pc && *pc != '}' && *pc != ':' && *pc != '/'`
is false. -/
def hostStop (c : Char) : Bool := c = '\x00' || c = '}' || c = ':' || c = '/'

/-- End test of the port loop: `*pc && *pc != '}' && *pc != '/'` is false. -/
def portStop (c : Char) : Bool := c = '\x00' || c = '}' || c = '/'

/-- End test of the transport loop: `*pc && *pc != '}'` is false. -/
def transStop (c : Char) : Bool := c = '\x00' || c = '}'

/-- The host loop of `imap_parse_path`: `pc` advances to the first character
that ends the host, and a character is stored into `host` only while
`n + 1 < hlen`, where `n` is the number of characters stored so far.  The
result is the stored characters and the final `pc`. -/
def host_loop (hlen : Nat) : List Char → List Char → List Char × List Char
  | host, [] => (host, [])
  | host, c :: pc =>
    if hostStop c then (host, c :: pc)
    else if host.length + 1 < hlen then host_loop hlen (host ++ [c]) pc
    else host_loop hlen host pc

/-- A loop `while (!stop (*pc)) pc++;` started with `pt = pc`: the result is
the text between `pt` and the final `pc`, and the final `pc`. -/
def scan_until (stop : Char → Bool) : List Char → List Char × List Char
  | [] => ([], [])
  | c :: pc =>
    if stop c then ([], c :: pc)
    else (c :: (scan_until stop pc).1, (scan_until stop pc).2)

/-- The `if (*pc == ':')` block of `imap_parse_path`.  `port` is `none` for
a null `port` pointer and the stored value otherwise.  The result is `none`
for `return -1` and the new `port` and `pc` otherwise. -/
def port_stage (port : Option Int) (pc : List Char) :
    Option (Option Int × List Char) :=
  if peek pc = ':' then
    let pt := (scan_until portStop pc.tail).1
    let pc2 := (scan_until portStop pc.tail).2
    if peek pc2 = '\x00' then none
    else
      let port2 := port.map (fun _ => atoi pt)
      if port2 = some 0 then none else some (port2, pc2)
  else some (port, pc)

/-- The `if (*pc == '/')` block of `imap_parse_path`; `USE_SSL` tells whether
the build defines the macro of that name. -/
def transport_stage (USE_SSL : Bool) (port : Option Int)
    (socktype : Option SockType) (pc : List Char) :
    Option (Option Int × Option SockType × List Char) :=
  if peek pc = '/' then
    let pt := (scan_until transStop pc.tail).1
    let pc2 := (scan_until transStop pc.tail).2
    if peek pc2 = '\x00' then none
    else if USE_SSL = true ∧ pt = ['s', 's', 'l'] then
      some (if port = some 0 then some IMAP_SSL_PORT else port,
            socktype.map (fun _ => SockType.M_NEW_SSL_SOCKET), pc2)
    else none
  else some (port, socktype, pc)

/-- Model of `imap_parse_path (path, host, hlen, port, socktype, mbox)`.
`IMAP_PORT` and `USE_SSL` are the build's constants, `hasPort` and
`hasSock` tell whether the `port` and `socktype` pointers are non-null.
The result is `none` for `return -1` and the stored outputs for `return 0`.
When `hlen = 0` nothing is stored into `host` and the emptiness test is
skipped; the reported host is then empty. -/
def imap_parse_path (IMAP_PORT : Int) (USE_SSL : Bool) (path : List Char)
    (hlen : Nat) (hasPort hasSock : Bool) : Option ParseResult :=
  let port0 : Option Int := if hasPort then some 0 else none
  let sock0 : Option SockType :=
    if hasSock then some SockType.M_NEW_SOCKET else none
  if peek path ≠ '{' then none
  else
    let host := (host_loop hlen [] path.tail).1
    let pc := (host_loop hlen [] path.tail).2
    if hlen ≠ 0 ∧ peek host = '\x00' then none
    else if peek pc = '\x00' then none
    else
      match port_stage port0 pc with
      | none => none
      | some (port1, pc1) =>
        match transport_stage USE_SSL port1 sock0 pc1 with
        | none => none
        | some (port2, sock2, pc2) =>
          some { host := host
                 port := if port2 = some 0 then some IMAP_PORT else port2
                 socktype := sock2
                 mbox := pc2.tail }

/-- The number a run of decimal digits denotes, most significant digit
first. -/
def decimalValue (ds : List Char) : Nat :=
  Nat.ofDigits 10 (ds.reverse.map (fun c => c.toNat - '0'.toNat))

/-- Modelled from the spec: the macro `NONULL` is defined in a header that is
not in the source tree; `Qualify` takes `basePath` and `name` as strings, and
a null pointer reads as the empty string. -/
def NONULL : Option (List Char) → List Char
  | none => []
  | some s => s

/-- The conversion `%d` of the C library function `snprintf`: the decimal
digits of the value, after a minus sign when it is negative. -/
def fmt_d (n : Int) : List Char :=
  if n < 0 then '-' :: Nat.toDigits 10 n.natAbs else Nat.toDigits 10 n.natAbs

/-- The C string `snprintf (dest, len, ...)` leaves in `dest` when the
formatted text is `text`: at most `len - 1` characters are stored before the
terminator.  Nothing is stored when `len = 0`; the result is then empty. -/
def snprintf_out (len : Nat) (text : List Char) : List Char := text.take (len - 1)

/-- Model of `imap_qualify_path (dest, len, host, port, path, name)`: the C
string left in `dest`.  `%s` prints the C string its argument points at. -/
def imap_qualify_path (IMAP_PORT : Int) (len : Nat) (host : List Char)
    (port : Int) (path name : Option (List Char)) : List Char :=
  if port = IMAP_PORT then
    snprintf_out len
      ('{' :: (cstr host ++ '}' :: (cstr (NONULL path) ++ cstr (NONULL name))))
  else
    snprintf_out len
      ('{' :: (cstr host ++ ':' :: (fmt_d port ++
        '}' :: (cstr (NONULL path) ++ cstr (NONULL name)))))

/-! ## imap_fix_path -/

/-- The test `(*mailbox == '/') || (*mailbox == idata->delim)`. -/
def isSep (delim c : Char) : Bool := c = '/' || c = delim

/-- The inner loop `while ((*mailbox == '/') || (*mailbox == idata->delim))
mailbox++;` of `imap_fix_path`: the final `mailbox`.  The model is that of a
delimiter other than NUL; with a NUL delimiter the C loop would read past
the terminator. -/
def skip_sep (delim : Char) : List Char → List Char
  | [] => []
  | c :: s => if isSep delim c then skip_sep delim s else c :: s

/-- The outer `while` loop of `imap_fix_path`: `x` is the index of the next
store, the list is what `mailbox` points at, and the result is the
characters stored into `path`.  `plen - 1` is computed in `size_t` of width
`w`.  The first argument bounds the number of turns; every turn moves
`mailbox` forward by at least one character, so the length of the text is
enough. -/
def fix_loop (w : Nat) (delim : Char) (plen : Nat) :
    Nat → Nat → List Char → List Char
  | 0, _, _ => []
  | fuel + 1, x, mailbox =>
    if peek mailbox = '\x00' ∨ ¬ (x < size_sub w plen 1) then []
    else if isSep delim (peek mailbox) then
      delim :: fix_loop w delim plen fuel (x + 1) (skip_sep delim mailbox)
    else peek mailbox :: fix_loop w delim plen fuel (x + 1) mailbox.tail

/-- Modelled from the spec: the macro `strfcpy` is defined in a header that
is not in the source tree; it is the bounded copy of the specification, which
stores at most `plen - 1` characters of the source and a terminator. -/
def strfcpy (src : List Char) (plen : Nat) : List Char := (cstr src).take (plen - 1)

/-- The reserved mailbox name. -/
def INBOX : List Char := ['I', 'N', 'B', 'O', 'X']

/-- Model of `imap_fix_path (idata, mailbox, path, plen)` with
`delim = idata->delim`: the C string left in `path`.  `mailbox` is `none`
for a null pointer. -/
def imap_fix_path (w : Nat) (delim : Char) (mailbox : Option (List Char))
    (plen : Nat) : List Char :=
  match mailbox with
  | none => strfcpy INBOX plen
  | some m =>
    if peek m = '\x00' then strfcpy INBOX plen
    else fix_loop w delim plen m.length 0 m

/-- Canonical form of a non-empty text: every maximal run of `/` or `d`
characters becomes a single `d`, every other character is copied. -/
def canon_body (d : Char) : List Char → List Char
  | [] => []
  | [c] => if isSep d c then [d] else [c]
  | c :: e :: t =>
    if isSep d c then
      if isSep d e then canon_body d (e :: t) else d :: canon_body d (e :: t)
    else c :: canon_body d (e :: t)

/-- Canonical form of a path: `INBOX` for the empty path, `canon_body`
otherwise. -/
def canon (path : List Char) (d : Char) : List Char :=
  if path = [] then INBOX else canon_body d path

/-- No two neighbours in the text are both separators (`/` or `d`). -/
def NoAdjacentSep (d : Char) (out : List Char) : Prop :=
  List.Chain' (fun a b => ¬ (isSep d a = true ∧ isSep d b = true)) out

/-! ## imap_get_literal_count -/

/-- The C library function `strchr (buf, c)` for a character `c` other than
NUL: the offset of the first `c` in the C string, or `none` for a null
result. -/
def strchr_index (c : Char) : List Char → Option Nat
  | [] => none
  | x :: s =>
    if x = c then some 0
    else if x = '\x00' then none
    else (strchr_index c s).map (fun i => i + 1)

/-- The loop `while (isdigit (*pc)) pc++;`: the characters `pc` passes. -/
def digit_run : List Char → List Char
  | [] => []
  | c :: s => if c.isDigit then c :: digit_run s else []

/-- What a successful `imap_get_literal_count` leaves behind: the value
stored through `bytes`, and the offset in `buf` of the final `pc`, where the
routine stores a NUL. -/
structure LiteralCount where
  bytes : Int
  stop : Nat
  deriving DecidableEq, Repr

/-- Model of `imap_get_literal_count (buf, bytes)`: `none` for `return -1`.
After `*pc = 0` the C string at `pn` is the digit run, which `atoi`
converts. -/
def imap_get_literal_count (buf : List Char) : Option LiteralCount :=
  match strchr_index '{' buf with
  | none => none
  | some i =>
    let run := digit_run (buf.drop (i + 1))
    some { bytes := atoi run, stop := i + 1 + run.length }

/-! ## imap_next_word, imap_get_qualifier, imap_wordcasecmp -/

/-- The first loop of `imap_next_word`: `while (*s && !ISSPACE (*s)) s++;`.
The macro `ISSPACE` is defined in a header outside `imap/util.c`; it is the
C library predicate `isspace`. -/
def skip_word : List Char → List Char
  | [] => []
  | c :: s => if c ≠ '\x00' ∧ isspace c = false then skip_word s else c :: s

/-- Modelled from the spec: the macro `SKIPWS` is defined in a header that is
not in the source tree; it moves the pointer past any following white
space. -/
def SKIPWS : List Char → List Char
  | [] => []
  | c :: s => if c ≠ '\x00' ∧ isspace c = true then SKIPWS s else c :: s

/-- Model of `imap_next_word (s)`: the text the returned pointer points at. -/
def imap_next_word (s : List Char) : List Char := SKIPWS (skip_word s)

/-- Model of `imap_get_qualifier (buf)`: the text the returned pointer points
at. -/
def imap_get_qualifier (buf : List Char) : List Char :=
  imap_next_word (imap_next_word buf)

/-- The `for` loop of `imap_wordcasecmp` with `bound = SHORT_STRING - 2`:
`i` is the loop index and the list is what `s` points at.  The result is the
characters stored into `tmp` from index `i` on, and whether the loop was
left through `break`. -/
def word_loop (bound : Nat) : Nat → List Char → List Char × Bool
  | i, [] => if i < bound then ([], true) else ([], false)
  | i, c :: s =>
    if i < bound then
      if c = '\x00' ∨ isspace c = true then ([], true)
      else (c :: (word_loop bound (i + 1) s).1, (word_loop bound (i + 1) s).2)
    else ([], false)

/-- Model of `imap_wordcasecmp (a, b)`.  `mutt_strcasecmp` is defined outside
`imap/util.c` and is a parameter; it reads its arguments as C strings.
`SHORT_STRING`, at least 2, is the size of `tmp`.  When the loop ends through
`break` at index `i`, `tmp[i]` and `tmp[i+1]` are set to NUL and `tmp` holds
the copied characters.  When it runs to `SHORT_STRING - 2`, only
`tmp[SHORT_STRING - 1]` is set to NUL and `tmp[SHORT_STRING - 2]` keeps the
indeterminate value `g` it had before the call. -/
def imap_wordcasecmp (mutt_strcasecmp : List Char → List Char → Int)
    (SHORT_STRING : Nat) (g : Char) (a b : List Char) : Int :=
  let r := word_loop (SHORT_STRING - 2) 0 b
  mutt_strcasecmp a (if r.2 then r.1 else r.1 ++ [g])

/-- The first word of a word list: the characters before the first white
space character or the end. -/
def firstWord (b : List Char) : List Char :=
  b.takeWhile (fun c => !(decide (c = '\x00') || isspace c))

/-- The C library function `tolower` in the C locale, on character codes. -/
def lowerCode (c : Char) : Nat :=
  if 65 ≤ c.toNat ∧ c.toNat ≤ 90 then c.toNat + 32 else c.toNat

/-- Two texts are equal when ASCII letter case is ignored. -/
def eqIgnoreCase (x y : List Char) : Prop := x.map lowerCode = y.map lowerCode

/-- The C library function `strcasecmp` on two texts: the difference of the
first two lower-cased characters that differ, the end of a text counting as
code 0. -/
def strcasecmp_text : List Char → List Char → Int
  | [], [] => 0
  | [], d :: _ => - (lowerCode d : Int)
  | c :: _, [] => (lowerCode c : Int)
  | c :: s, d :: t =>
    if lowerCode c = lowerCode d then strcasecmp_text s t
    else (lowerCode c : Int) - (lowerCode d : Int)

/-- Modelled from the spec: `mutt_strcasecmp` is defined in a file that is
not in the source tree; the specification has it compare two strings
case-insensitively, as the C library function `strcasecmp` does. -/
def mutt_strcasecmp (a b : List Char) : Int := strcasecmp_text (cstr a) (cstr b)

/-! ## imap_wait_keepalive -/

/-- The option flags of the session that `imap_wait_keepalive` reads or
writes. -/
structure Options where
  OPTIMAPPASSIVE : Bool
  OPTKEEPQUIET : Bool
  OPTMSGERR : Bool
  deriving DecidableEq, Repr

/-- What one call `waitpid (pid, &rc, 0)` reports: an interruption by the
alarm signal (a negative result with `errno == EINTR`), the completion of the
process with its status stored in `rc`, or a failure with another `errno`. -/
inductive WaitResult where
  | eintr
  | exited (status : Int)
  | failed
  deriving DecidableEq, Repr

/-- The calls `imap_wait_keepalive` makes, as seen from outside: `alarm`
with its argument, `waitpid`, and `mutt_buffy_check`. -/
inductive Step where
  | alarm (seconds : Int)
  | wait
  | poll
  deriving DecidableEq, Repr

/-- The session while `imap_wait_keepalive` runs: the option flags, the calls
made so far in order, and the option flags in force at each call of
`waitpid`. -/
structure Session where
  opts : Options
  log : List Step
  waits : List Options
  deriving DecidableEq, Repr

/-- The argument of `alarm`: `ImapCheckTimeout > 0 ? ImapCheckTimeout : 60`. -/
def keepalive_timeout (ImapCheckTimeout : Int) : Int :=
  if ImapCheckTimeout > 0 then ImapCheckTimeout else 60

/-- The loop `while (waitpid (pid, &rc, 0) < 0 && errno == EINTR)` of
`imap_wait_keepalive`.  The list gives what the successive calls of
`waitpid` report, `rc` is the current content of the variable `rc`, and
`mutt_buffy_check`, which is defined outside `imap/util.c`, is a parameter
acting on the option flags.  The result is `none` when `waitpid` has not
returned after the listed reports (the routine is still blocked), and the
session and `rc` at the end of the loop otherwise. -/
def wait_loop (mutt_buffy_check : Options → Options) (ImapCheckTimeout : Int) :
    List WaitResult → Int → Session → Option (Session × Int)
  | [], _, _ => none
  | WaitResult.eintr :: rs, rc, s =>
    let s1 : Session :=
      { opts := s.opts, log := s.log ++ [Step.wait], waits := s.waits ++ [s.opts] }
    let s2 : Session :=
      if s1.opts.OPTMSGERR then s1
      else { opts := mutt_buffy_check s1.opts, log := s1.log ++ [Step.poll],
             waits := s1.waits }
    wait_loop mutt_buffy_check ImapCheckTimeout rs rc
      { opts := s2.opts
        log := s2.log ++ [Step.alarm (keepalive_timeout ImapCheckTimeout)]
        waits := s2.waits }
  | WaitResult.exited status :: _, _, s =>
    some ({ opts := s.opts, log := s.log ++ [Step.wait],
            waits := s.waits ++ [s.opts] }, status)
  | WaitResult.failed :: _, rc, s =>
    some ({ opts := s.opts, log := s.log ++ [Step.wait],
            waits := s.waits ++ [s.opts] }, rc)

/-- Model of `imap_wait_keepalive (pid)`: the session after the call and the
returned `rc`, or `none` while the routine is blocked.  `rc0` is the
indeterminate initial content of `rc`; the signal mask and the signal
handler, which the routine saves and restores, are not part of the model. -/
def imap_wait_keepalive (mutt_buffy_check : Options → Options)
    (ImapCheckTimeout : Int) (rc0 : Int) (events : List WaitResult)
    (opts : Options) : Option (Session × Int) :=
  let imap_passive := opts.OPTIMAPPASSIVE
  let s0 : Session :=
    { opts := { OPTIMAPPASSIVE := true, OPTKEEPQUIET := true,
                OPTMSGERR := opts.OPTMSGERR }
      log := [Step.alarm (keepalive_timeout ImapCheckTimeout)]
      waits := [] }
  match wait_loop mutt_buffy_check ImapCheckTimeout events rc0 s0 with
  | none => none
  | some (s, rc) =>
    some ({ opts :=
              { OPTIMAPPASSIVE := if imap_passive then s.opts.OPTIMAPPASSIVE else false
                OPTKEEPQUIET := false
                OPTMSGERR := s.opts.OPTMSGERR }
            log := s.log ++ [Step.alarm 0]
            waits := s.waits }, rc)

/-- A block of calls repeated `n` times. -/
def repeatBlock : Nat → List Step → List Step
  | 0, _ => []
  | n + 1, block => block ++ repeatBlock n block

/-- The reports of `waitpid` when the process completes with `status` after
exactly `n` expiries of the timeout. -/
def expiriesThenExit (n : Nat) (status : Int) : List WaitResult :=
  List.replicate n WaitResult.eintr ++ [WaitResult.exited status]

/-! ## Lemmas on C strings and `size_t` arithmetic -/

theorem cstr_of_no_nul : ∀ s : List Char, (∀ c ∈ s, c ≠ '\x00') → cstr s = s
  | [], _ => rfl
  | c :: s, h => by
    have hc : c ≠ '\x00' := h c (List.mem_cons_self _ _)
    have hs : ∀ d ∈ s, d ≠ '\x00' := fun d hd => h d (List.mem_cons_of_mem _ hd)
    simp [cstr, hc, cstr_of_no_nul s hs]

theorem cstr_no_nul : ∀ s : List Char, ∀ c ∈ cstr s, c ≠ '\x00'
  | [], c, h => by simp [cstr] at h
  | d :: s, c, h => by
    by_cases hd : d = '\x00'
    · simp [cstr, hd] at h
    · simp only [cstr, hd, if_false, List.mem_cons] at h
      rcases h with h | h
      · exact h ▸ hd
      · exact cstr_no_nul s c h

theorem size_sub_of_le (w a b : Nat) (hb : b ≤ a) (ha : a < 2 ^ w) :
    size_sub w a b = a - b := by
  unfold size_sub
  have hb2 : b % 2 ^ w = b := Nat.mod_eq_of_lt (by omega)
  rw [hb2]
  have h1 : a + 2 ^ w - b = (a - b) + 2 ^ w := by omega
  rw [h1, Nat.add_mod_right]
  exact Nat.mod_eq_of_lt (by omega)

/-! ## Lemmas on quoting -/

theorem quote_loop_prefix (w : Nat) :
    ∀ (s : List Char) (len : Nat),
      ∃ p, p <+: cstr s ∧ quote_loop w len s = escape p := by
  intro s
  induction s with
  | nil => intro len; exact ⟨[], by simp [cstr], by simp [quote_loop, escape]⟩
  | cons c s ih =>
    intro len
    by_cases h0 : c = '\x00' ∨ len = 0
    · exact ⟨[], List.nil_prefix, by simp [quote_loop, h0, escape]⟩
    · have hc : c ≠ '\x00' := fun h => h0 (Or.inl h)
      by_cases hq : isQuoteSpecial c = true
      · by_cases hz : size_sub w len 2 = 0
        · exact ⟨[], List.nil_prefix, by simp [quote_loop, h0, hq, hz, escape]⟩
        · obtain ⟨p, hp, he⟩ := ih (size_sub w len 2)
          refine ⟨c :: p, ?_, ?_⟩
          · simp only [cstr, hc, if_false]
            exact (List.prefix_cons_inj c).mpr hp
          · simp [quote_loop, h0, hq, hz, escape, he]
      · obtain ⟨p, hp, he⟩ := ih (size_sub w len 1)
        refine ⟨c :: p, ?_, ?_⟩
        · simp only [cstr, hc, if_false]
          exact (List.prefix_cons_inj c).mpr hp
        · simp [quote_loop, h0, hq, escape, he]

theorem quote_loop_fits (w : Nat) :
    ∀ (s : List Char) (len : Nat), (∀ c ∈ s, c ≠ '\x00') →
      s.length + countSpecial s + 1 ≤ len → len < 2 ^ w →
      quote_loop w len s = escape s := by
  intro s
  induction s with
  | nil => intro len _ _ _; simp [quote_loop, escape]
  | cons c s ih =>
    intro len hn hlen hw
    have hc : c ≠ '\x00' := hn c (List.mem_cons_self _ _)
    have hs : ∀ d ∈ s, d ≠ '\x00' := fun d hd => hn d (List.mem_cons_of_mem _ hd)
    have h0 : ¬ (c = '\x00' ∨ len = 0) := by
      rintro (h | h)
      · exact hc h
      · omega
    by_cases hq : isQuoteSpecial c = true
    · have hcnt : countSpecial (c :: s) = countSpecial s + 1 := by
        simp [countSpecial, List.countP_cons, hq]
      simp only [List.length_cons, hcnt] at hlen
      have h2 : size_sub w len 2 = len - 2 := size_sub_of_le w len 2 (by omega) hw
      have hz : size_sub w len 2 ≠ 0 := by omega
      have := ih (len - 2) hs (by omega) (by omega)
      rw [quote_loop, escape]
      simp only [h0, hq, hz, if_true, if_false]
      rw [h2, this]
    · have hcnt : countSpecial (c :: s) = countSpecial s := by
        simp [countSpecial, List.countP_cons, hq]
      simp only [List.length_cons, hcnt] at hlen
      have h1 : size_sub w len 1 = len - 1 := size_sub_of_le w len 1 (by omega) hw
      have := ih (len - 1) hs (by omega) (by omega)
      simp [quote_loop, h0, hq, escape, h1, this]

/-! ## Lemmas on unquoting -/

theorem unquote_loop_cons_plain (c : Char) (s : List Char)
    (h0 : c ≠ '\x00') (h1 : c ≠ '"') (h2 : c ≠ '\\') :
    unquote_loop (c :: s) = c :: unquote_loop s := by
  cases s <;> simp [unquote_loop, h0, h1, h2]

theorem unquote_loop_escape :
    ∀ s : List Char, (∀ c ∈ s, c ≠ '\x00') →
      unquote_loop (escape s ++ ['"']) = s := by
  intro s
  induction s with
  | nil => intro _; simp [escape, unquote_loop]
  | cons c s ih =>
    intro hn
    have hc : c ≠ '\x00' := hn c (List.mem_cons_self _ _)
    have hs : ∀ d ∈ s, d ≠ '\x00' := fun d hd => hn d (List.mem_cons_of_mem _ hd)
    by_cases hq : isQuoteSpecial c = true
    · simp [escape, hq, unquote_loop, hc, ih hs]
    · have hq2 : c ≠ '"' ∧ c ≠ '\\' := by
        simpa [isQuoteSpecial, not_or] using hq
      rw [escape]
      simp only [hq, List.cons_append, Bool.false_eq_true, if_false]
      rw [unquote_loop_cons_plain c _ hc hq2.1 hq2.2, ih hs]

theorem unquote_loop_eq_decodeBody :
    ∀ (n : Nat) (s : List Char), s.length ≤ n →
      unquote_loop s = decodeBody (cstr s) := by
  intro n
  induction n with
  | zero =>
    intro s hs
    have : s = [] := List.length_eq_zero.mp (by omega)
    subst this
    simp [unquote_loop, decodeBody, cstr]
  | succ n ih =>
    intro s hs
    match s, hs with
    | [], _ => simp [unquote_loop, decodeBody, cstr]
    | [c], _ =>
      by_cases h0 : c = '\x00'
      · simp [unquote_loop, decodeBody, cstr, h0]
      · by_cases h1 : c = '"'
        · simp [unquote_loop, decodeBody, cstr, h1]
        · by_cases h2 : c = '\\'
          · simp [unquote_loop, decodeBody, cstr, h2]
          · simp [unquote_loop, decodeBody, cstr, h0, h1, h2]
    | c :: e :: t, hs =>
      simp only [List.length_cons] at hs
      have iht := ih t (by omega)
      have ihe := ih (e :: t) (by simp only [List.length_cons]; omega)
      by_cases h0 : c = '\x00'
      · simp [unquote_loop, decodeBody, cstr, h0]
      · by_cases h1 : c = '"'
        · by_cases he : e = '\x00'
          · simp [unquote_loop, decodeBody, cstr, h1, he]
          · simp [unquote_loop, decodeBody, cstr, h1, he]
        · by_cases h2 : c = '\\'
          · by_cases he : e = '\x00'
            · simp [unquote_loop, decodeBody, cstr, h2, he]
            · simp [unquote_loop, decodeBody, cstr, h2, he, iht]
          · by_cases he : e = '\x00'
            · rw [unquote_loop_cons_plain c _ h0 h1 h2, ihe]
              simp [decodeBody, cstr, h0, h1, h2, he]
            · rw [unquote_loop_cons_plain c _ h0 h1 h2, ihe]
              simp [decodeBody, cstr, h0, h1, h2, he]

/-! ## Lemmas on the scanning loops -/

theorem scan_until_append (stop : Char → Bool) :
    ∀ (t rest : List Char), (∀ c ∈ t, stop c = false) →
      stop (peek rest) = true → scan_until stop (t ++ rest) = (t, rest) := by
  intro t
  induction t with
  | nil =>
    intro rest _ hr
    cases rest with
    | nil => simp [scan_until]
    | cons d r => simp [scan_until, peek] at hr ⊢; simp [hr]
  | cons c t ih =>
    intro rest ht hr
    have hc : stop c = false := ht c (List.mem_cons_self _ _)
    have hs : ∀ d ∈ t, stop d = false := fun d hd => ht d (List.mem_cons_of_mem _ hd)
    simp [scan_until, hc, ih rest hs hr]

theorem scan_until_append_or (stop : Char → Bool) (hst : stop '\x00' = true) :
    ∀ (t rest : List Char), (∀ c ∈ t, c ≠ '\x00' → stop c = false) →
      stop (peek rest) = true →
      scan_until stop (t ++ rest) = (t, rest) ∨
        peek (scan_until stop (t ++ rest)).2 = '\x00' := by
  intro t
  induction t with
  | nil =>
    intro rest _ hr
    exact Or.inl (scan_until_append stop [] rest (by simp) hr)
  | cons c t ih =>
    intro rest ht hr
    by_cases hc : c = '\x00'
    · right
      simp [scan_until, hc, hst, peek]
    · have hc2 : stop c = false := ht c (List.mem_cons_self _ _) hc
      have hs : ∀ d ∈ t, d ≠ '\x00' → stop d = false :=
        fun d hd => ht d (List.mem_cons_of_mem _ hd)
      rcases ih rest hs hr with h | h
      · left; simp [scan_until, hc2, h]
      · right; simpa [scan_until, hc2] using h

theorem scan_until_peek (stop : Char → Bool) (hst : stop '\x00' = true) :
    ∀ l : List Char, stop (peek (scan_until stop l).2) = true := by
  intro l
  induction l with
  | nil => simpa [scan_until, peek] using hst
  | cons c l ih =>
    by_cases hc : stop c = true
    · simp [scan_until, hc, peek]
    · simpa [scan_until, hc] using ih

theorem scan_until_mem (stop : Char → Bool) :
    ∀ (l : List Char) (c : Char), c ∈ (scan_until stop l).2 → c ∈ l := by
  intro l
  induction l with
  | nil => intro c h; simp [scan_until] at h
  | cons d l ih =>
    intro c h
    by_cases hd : stop d = true
    · simpa [scan_until, hd] using h
    · simp only [scan_until, hd, Bool.false_eq_true, if_false] at h
      exact List.mem_cons_of_mem _ (ih c h)

theorem host_loop_snd (hlen : Nat) :
    ∀ (pc host : List Char),
      (host_loop hlen host pc).2 = (scan_until hostStop pc).2 := by
  intro pc
  induction pc with
  | nil => intro host; simp [host_loop, scan_until]
  | cons c pc ih =>
    intro host
    by_cases hc : hostStop c = true
    · simp [host_loop, scan_until, hc]
    · by_cases hn : host.length + 1 < hlen
      · simp [host_loop, scan_until, hc, hn, ih]
      · simp [host_loop, scan_until, hc, hn, ih]

theorem host_loop_fst (hlen : Nat) :
    ∀ (pc host : List Char),
      (host_loop hlen host pc).1 =
        host ++ (scan_until hostStop pc).1.take (hlen - 1 - host.length) := by
  intro pc
  induction pc with
  | nil => intro host; simp [host_loop, scan_until]
  | cons c pc ih =>
    intro host
    by_cases hc : hostStop c = true
    · simp [host_loop, scan_until, hc]
    · by_cases hn : host.length + 1 < hlen
      · have hk : hlen - 1 - host.length = (hlen - 1 - (host.length + 1)) + 1 := by
          omega
        simp only [host_loop, scan_until, hc, hn, Bool.false_eq_true, if_false,
          if_true, ih, List.length_append, List.length_singleton]
        rw [hk, List.take_succ_cons]
        simp
      · have hk : hlen - 1 - host.length = 0 := by omega
        simp [host_loop, scan_until, hc, hn, ih, hk]

theorem take_min_length (k : Nat) (h : List Char) :
    h.take (min h.length k) = h.take k := by
  rcases Nat.le_total h.length k with hle | hle
  · rw [Nat.min_eq_left hle, List.take_of_length_le hle, List.take_of_length_le (le_refl _)]
  · rw [Nat.min_eq_right hle]

/-! ## Lemmas on `atoi` -/

theorem isDigit_not_special (c : Char) (h : c.isDigit = true) :
    isspace c = false ∧ c ≠ '-' ∧ c ≠ '+' ∧ hostStop c = false ∧
      portStop c = false := by
  refine ⟨?_, ?_, ?_, ?_, ?_⟩
  · simp only [isspace, Bool.or_eq_false_iff, decide_eq_false_iff_not]
    refine ⟨⟨⟨⟨⟨?_, ?_⟩, ?_⟩, ?_⟩, ?_⟩, ?_⟩ <;>
      (rintro rfl; exact absurd h (by decide))
  · rintro rfl; exact absurd h (by decide)
  · rintro rfl; exact absurd h (by decide)
  · simp only [hostStop, Bool.or_eq_false_iff, decide_eq_false_iff_not]
    refine ⟨⟨⟨?_, ?_⟩, ?_⟩, ?_⟩ <;> (rintro rfl; exact absurd h (by decide))
  · simp only [portStop, Bool.or_eq_false_iff, decide_eq_false_iff_not]
    refine ⟨⟨?_, ?_⟩, ?_⟩ <;> (rintro rfl; exact absurd h (by decide))

theorem atoi_digits_eq :
    ∀ (ds : List Char) (acc : Nat), (∀ c ∈ ds, c.isDigit = true) →
      atoi_digits acc ds = decimalValue ds + 10 ^ ds.length * acc := by
  intro ds
  induction ds with
  | nil => intro acc _; simp [atoi_digits, decimalValue]
  | cons c ds ih =>
    intro acc hd
    have hc : c.isDigit = true := hd c (List.mem_cons_self _ _)
    have hs : ∀ d ∈ ds, d.isDigit = true := fun d h => hd d (List.mem_cons_of_mem _ h)
    rw [atoi_digits]
    simp only [hc, if_true]
    rw [ih _ hs]
    simp only [decimalValue, List.reverse_cons, List.map_append, List.map_cons,
      List.map_nil, Nat.ofDigits_append, Nat.ofDigits_singleton, List.length_map,
      List.length_reverse, List.length_cons]
    ring

theorem strtol_exact_of_digits (ds : List Char)
    (hd : ∀ c ∈ ds, c.isDigit = true) :
    strtol_exact ds = (decimalValue ds : Int) := by
  cases ds with
  | nil => simp [strtol_exact, decimalValue]
  | cons c t =>
    have hc : c.isDigit = true := hd c (List.mem_cons_self _ _)
    obtain ⟨h1, h2, h3, _, _⟩ := isDigit_not_special c hc
    have hval := atoi_digits_eq (c :: t) 0 hd
    simp only [Nat.mul_zero, Nat.add_zero] at hval
    simp [strtol_exact, List.dropWhile, h1, h2, h3, hval]

theorem int_of_long_of_fits (v : Int) (h0 : 0 ≤ v) (h1 : v < 2147483648) :
    int_of_long (strtol_clamp v) = v := by
  have hc : strtol_clamp v = v := by
    unfold strtol_clamp
    rw [if_neg (by omega), if_neg (by omega)]
  rw [hc]
  unfold int_of_long
  omega

theorem atoi_of_digits (ds : List Char) (hd : ∀ c ∈ ds, c.isDigit = true)
    (hfit : decimalValue ds < 2147483648) : atoi ds = (decimalValue ds : Int) := by
  unfold atoi
  rw [strtol_exact_of_digits ds hd]
  exact int_of_long_of_fits _ (Int.natCast_nonneg _) (by exact_mod_cast hfit)

theorem peek_cons (c : Char) (l : List Char) : peek (c :: l) = c := rfl

theorem peek_mem (l : List Char) (h : peek l ≠ '\x00') : peek l ∈ l := by
  cases l with
  | nil => exact absurd rfl h
  | cons c l => simp [peek]

theorem parse_path_no_brace (IMAP_PORT : Int) (USE_SSL : Bool)
    (path : List Char) (hlen : Nat) (hasPort hasSock : Bool)
    (h : peek path ≠ '{') :
    imap_parse_path IMAP_PORT USE_SSL path hlen hasPort hasSock = none := by
  simp [imap_parse_path, h]

theorem parse_path_brace (IMAP_PORT : Int) (USE_SSL : Bool)
    (body : List Char) (hlen : Nat) (hasPort hasSock : Bool) :
    imap_parse_path IMAP_PORT USE_SSL ('{' :: body) hlen hasPort hasSock =
      if hlen ≠ 0 ∧ peek ((scan_until hostStop body).1.take (hlen - 1)) = '\x00'
      then none
      else if peek (scan_until hostStop body).2 = '\x00' then none
      else
        match port_stage (if hasPort then some 0 else none)
            (scan_until hostStop body).2 with
        | none => none
        | some (port1, pc1) =>
          match transport_stage USE_SSL port1
              (if hasSock then some SockType.M_NEW_SOCKET else none) pc1 with
          | none => none
          | some (port2, sock2, pc2) =>
            some { host := (scan_until hostStop body).1.take (hlen - 1)
                   port := if port2 = some 0 then some IMAP_PORT else port2
                   socktype := sock2
                   mbox := pc2.tail } := by
  simp [imap_parse_path, peek, host_loop_fst, host_loop_snd]

theorem parse_path_nul_after_host (IMAP_PORT : Int) (USE_SSL : Bool)
    (body : List Char) (hlen : Nat) (hasPort hasSock : Bool)
    (h : peek (scan_until hostStop body).2 = '\x00') :
    imap_parse_path IMAP_PORT USE_SSL ('{' :: body) hlen hasPort hasSock = none := by
  rw [parse_path_brace]
  simp [h]

theorem parse_path_transport_none (IMAP_PORT : Int) (USE_SSL : Bool)
    (body : List Char) (hlen : Nat) (hasPort hasSock : Bool)
    (h : ∀ port1 pc1, port_stage (if hasPort then some 0 else none)
        (scan_until hostStop body).2 = some (port1, pc1) →
        transport_stage USE_SSL port1
          (if hasSock then some SockType.M_NEW_SOCKET else none) pc1 = none) :
    imap_parse_path IMAP_PORT USE_SSL ('{' :: body) hlen hasPort hasSock = none := by
  rw [parse_path_brace]
  generalize (if hasPort then some (0 : Int) else none) = port0 at h ⊢
  generalize (if hasSock then some SockType.M_NEW_SOCKET else none) = sock0 at h ⊢
  by_cases h1 : hlen ≠ 0 ∧ peek ((scan_until hostStop body).1.take (hlen - 1)) = '\x00'
  · rw [if_pos h1]
  · rw [if_neg h1]
    by_cases h2 : peek (scan_until hostStop body).2 = '\x00'
    · rw [if_pos h2]
    · rw [if_neg h2]
      cases hp : port_stage port0 (scan_until hostStop body).2 with
      | none => rfl
      | some r =>
        obtain ⟨port1, pc1⟩ := r
        simp [h port1 pc1 hp]

theorem host_take_peek (h : List Char) (hlen : Nat) (hne : h ≠ [])
    (hh : ∀ c ∈ h, hostStop c = false) (hl : 2 ≤ hlen) :
    peek (h.take (hlen - 1)) ≠ '\x00' := by
  cases h with
  | nil => exact absurd rfl hne
  | cons c t =>
    have hc : hostStop c = false := hh c (List.mem_cons_self _ _)
    have hk : hlen - 1 = (hlen - 2) + 1 := by omega
    rw [hk, List.take_succ_cons]
    intro h0
    simp only [peek] at h0
    simp [hostStop, h0] at hc

theorem port_stage_skip (port : Option Int) (pc : List Char)
    (h : peek pc ≠ ':') : port_stage port pc = some (port, pc) := by
  simp [port_stage, h]

theorem transport_stage_skip (USE_SSL : Bool) (port : Option Int)
    (sock : Option SockType) (pc : List Char) (h : peek pc ≠ '/') :
    transport_stage USE_SSL port sock pc = some (port, sock, pc) := by
  simp [transport_stage, h]

theorem transport_stage_ssl (port : Option Int) (sock : Option SockType)
    (m : List Char) :
    transport_stage true port sock ('/' :: 's' :: 's' :: 'l' :: '}' :: m) =
      some (if port = some 0 then some IMAP_SSL_PORT else port,
            sock.map (fun _ => SockType.M_NEW_SSL_SOCKET), '}' :: m) := by
  simp [transport_stage, peek, scan_until, transStop]

theorem transport_stage_not_ssl (USE_SSL : Bool) (port : Option Int)
    (sock : Option SockType) (t m : List Char)
    (ht : ∀ c ∈ t, c ≠ '}') (hne : t ≠ ['s', 's', 'l']) :
    transport_stage USE_SSL port sock ('/' :: (t ++ '}' :: m)) = none := by
  have hst : transStop '\x00' = true := by decide
  have hsc := scan_until_append_or transStop hst t ('}' :: m)
    (by
      intro c hc h0
      have := ht c hc
      simp [transStop, h0, this])
    (by simp [peek, transStop])
  rcases hsc with h | h
  · simp [transport_stage, peek_cons, h, hne]
  · simp [transport_stage, peek_cons, h]

theorem transport_stage_no_close (USE_SSL : Bool) (port : Option Int)
    (sock : Option SockType) (pc : List Char)
    (hp : peek pc = '/') (hno : '}' ∉ pc) :
    transport_stage USE_SSL port sock pc = none := by
  have hst : transStop '\x00' = true := by decide
  have hstop := scan_until_peek transStop hst pc.tail
  have hnul : peek (scan_until transStop pc.tail).2 = '\x00' := by
    by_contra hn
    have hmem := peek_mem _ hn
    have hmem2 : peek (scan_until transStop pc.tail).2 ∈ pc :=
      List.mem_of_mem_tail (scan_until_mem transStop _ _ hmem)
    have hcl : peek (scan_until transStop pc.tail).2 = '}' := by
      simpa [transStop, hn] using hstop
    rw [hcl] at hmem2
    exact hno hmem2
  simp [transport_stage, hp, hnul]

theorem port_stage_no_close (port port1 : Option Int) (pc pc1 : List Char)
    (hnul : peek pc ≠ '\x00') (hstop : hostStop (peek pc) = true)
    (hno : '}' ∉ pc) (h : port_stage port pc = some (port1, pc1)) :
    peek pc1 = '/' ∧ '}' ∉ pc1 := by
  have hncl : peek pc ≠ '}' := fun hc => hno (hc ▸ peek_mem pc hnul)
  by_cases hcolon : peek pc = ':'
  · have hst : portStop '\x00' = true := by decide
    have hs := scan_until_peek portStop hst pc.tail
    have hsub : ∀ c ∈ (scan_until portStop pc.tail).2, c ∈ pc :=
      fun c hc => List.mem_of_mem_tail (scan_until_mem portStop _ _ hc)
    simp only [port_stage, hcolon, if_true] at h
    split_ifs at h with h1 h2
    obtain ⟨_, rfl⟩ := Prod.mk.inj (Option.some.inj h)
    have hno1 : '}' ∉ (scan_until portStop pc.tail).2 := fun hc => hno (hsub _ hc)
    refine ⟨?_, hno1⟩
    have hncl1 : peek (scan_until portStop pc.tail).2 ≠ '}' :=
      fun hc => hno1 (hc ▸ peek_mem _ h1)
    simpa [portStop, h1, hncl1] using hs
  · rw [port_stage_skip port pc hcolon] at h
    obtain ⟨_, rfl⟩ := Prod.mk.inj (Option.some.inj h)
    refine ⟨?_, hno⟩
    simpa [hostStop, hnul, hncl, hcolon] using hstop

theorem port_stage_colon (port port1 : Option Int) (p rest pc1 : List Char)
    (d : Char) (hd : d = '}' ∨ d = '/') (hp : ∀ c ∈ p, c ≠ '}' ∧ c ≠ '/')
    (h : port_stage port (':' :: (p ++ d :: rest)) = some (port1, pc1)) :
    pc1 = d :: rest ∧ port1 = port.map (fun _ => atoi p) ∧ port1 ≠ some 0 := by
  have hst : portStop '\x00' = true := by decide
  have hsc := scan_until_append_or portStop hst p (d :: rest)
    (by
      intro c hc h0
      have := hp c hc
      simp [portStop, h0, this.1, this.2])
    (by rcases hd with rfl | rfl <;> simp [peek_cons, portStop])
  have hd0 : d ≠ '\x00' := by rcases hd with rfl | rfl <;> decide
  simp only [port_stage, peek_cons, if_true, List.tail_cons] at h
  rcases hsc with hs | hs
  · rw [hs] at h
    simp only [peek_cons, hd0, if_false] at h
    split_ifs at h with h1
    obtain ⟨rfl, rfl⟩ := Prod.mk.inj (Option.some.inj h)
    exact ⟨rfl, rfl, h1⟩
  · simp [hs] at h

theorem take_of_fits (h : List Char) (hlen : Nat) (hfit : h.length < hlen) :
    h.take (hlen - 1) = h :=
  List.take_of_length_le (by omega)

theorem host_scan (h rest : List Char) (d : Char)
    (hh : ∀ c ∈ h, c ≠ '\x00' ∧ c ≠ '}' ∧ c ≠ ':' ∧ c ≠ '/')
    (hd : hostStop d = true) :
    scan_until hostStop (h ++ d :: rest) = (h, d :: rest) :=
  scan_until_append hostStop h (d :: rest)
    (by
      intro c hc
      obtain ⟨h0, h1, h2, h3⟩ := hh c hc
      simp [hostStop, h0, h1, h2, h3])
    (by simpa [peek_cons] using hd)

theorem host_scan_or (h rest : List Char) (d : Char)
    (hh : ∀ c ∈ h, c ≠ '}' ∧ c ≠ ':' ∧ c ≠ '/')
    (hd : hostStop d = true) :
    scan_until hostStop (h ++ d :: rest) = (h, d :: rest) ∨
      peek (scan_until hostStop (h ++ d :: rest)).2 = '\x00' :=
  scan_until_append_or hostStop (by decide) h (d :: rest)
    (by
      intro c hc h0
      obtain ⟨h1, h2, h3⟩ := hh c hc
      simp [hostStop, h0, h1, h2, h3])
    (by simpa [peek_cons] using hd)

/-! ## The quote codec: claims C1 to C4 -/

/-- C1 (refuted on the code): the bytes `imap_quote_string` stores are not
bounded by the capacity.  With capacity 3 the source `ab` makes it store 4
bytes (`"a"` and the NUL), because only the two quotes are reserved and not
the terminator; and the source consisting of one `"` makes it store 5 bytes,
because `len -= 2` wraps from 1 to `2 ^ w - 1` and the `!len` test misses
it. -/
theorem quote_string_exceeds_capacity :
    imap_quote_string 64 3 ['a', 'b'] = ['"', 'a', '"'] ∧
    quote_bytes_written 64 3 ['a', 'b'] = 4 ∧
    imap_quote_string 64 3 ['"'] = ['"', '\\', '"', '"'] ∧
    quote_bytes_written 64 3 ['"'] = 5 ∧
    quote_bytes_written 32 3 ['"'] = 5 := by
  decide

/-- C2: round trip.  For a source text `s` without NUL and a capacity of at
least `length s + (number of quotes and backslashes in s) + 3`,
`imap_unquote_string` applied to the output of `imap_quote_string` gives
back `s`. -/
theorem quote_unquote_roundtrip (w slen : Nat) (s : List Char)
    (hnul : ∀ c ∈ s, c ≠ '\x00')
    (hcap : s.length + countSpecial s + 3 ≤ slen) (hw : slen < 2 ^ w) :
    imap_unquote_string (imap_quote_string w slen s) = s := by
  have h2 : size_sub w slen 2 = slen - 2 := size_sub_of_le w slen 2 (by omega) hw
  have hq := quote_loop_fits w s (slen - 2) hnul (by omega) (by omega)
  simp only [imap_quote_string, imap_unquote_string, h2, hq, if_true]
  exact unquote_loop_escape s hnul

theorem quote_unquote_roundtrip_witness :
    (7 : Nat) < 2 ^ 64 ∧
    imap_quote_string 64 7 ['a', '"', 'b'] = ['"', 'a', '\\', '"', 'b', '"'] ∧
    imap_unquote_string (imap_quote_string 64 7 ['a', '"', 'b']) = ['a', '"', 'b'] :=
  ⟨by decide, by decide,
    quote_unquote_roundtrip 64 7 ['a', '"', 'b'] (by decide) (by decide) (by decide)⟩

/-- C3: for every source and every capacity (in particular every capacity of
at least 2) the output of `imap_quote_string` is an opening quote, the
escaping of a prefix of the source string, and a closing quote; so it starts
and ends with a quote and never ends in a dangling escape. -/
theorem quote_string_well_quoted (w slen : Nat) (src : List Char) :
    ∃ p, p <+: cstr src ∧
      imap_quote_string w slen src = '"' :: (escape p ++ ['"']) ∧
      (imap_quote_string w slen src).head? = some '"' ∧
      (imap_quote_string w slen src).getLast? = some '"' := by
  obtain ⟨p, hp, he⟩ := quote_loop_prefix w src (size_sub w slen 2)
  refine ⟨p, hp, ?_, ?_, ?_⟩
  · simp [imap_quote_string, he]
  · simp [imap_quote_string]
  · simp only [imap_quote_string]
    rw [← List.cons_append, List.getLast?_append]
    simp

/-- C4: `imap_unquote_string` equals the reference decoder on the text held
by the buffer: text not starting with a quote is unchanged; otherwise a
backslash is dropped and the next character kept, an unescaped quote ends
the result, and without a closing quote the scan runs to the end. -/
theorem unquote_string_eq_ref (s : List Char) :
    imap_unquote_string s = unquote_ref (cstr s) := by
  cases s with
  | nil => simp [imap_unquote_string, unquote_ref, cstr]
  | cons c t =>
    by_cases h0 : c = '\x00'
    · subst h0
      simp [imap_unquote_string, unquote_ref, cstr]
    · by_cases h1 : c = '"'
      · subst h1
        simp [imap_unquote_string, unquote_ref, cstr,
          unquote_loop_eq_decodeBody t.length t (le_refl _)]
      · simp [imap_unquote_string, unquote_ref, cstr, h0, h1]

/-! ## The mailbox path parser: claims C5 to C10 -/

/-- C5: for a non-empty host `h` without NUL, `}`, `:` and `/`, any mailbox
text `m` and a host capacity of at least 2, parsing `{h}m` succeeds with the
first `min (length h) (hlen - 1)` characters of `h` as host, `IMAP_PORT` as
port, the plain socket kind, and `m` as mailbox. -/
theorem parse_path_plain (IMAP_PORT : Int) (USE_SSL : Bool)
    (h m : List Char) (hlen : Nat) (hne : h ≠ [])
    (hh : ∀ c ∈ h, c ≠ '\x00' ∧ c ≠ '}' ∧ c ≠ ':' ∧ c ≠ '/')
    (hl : 2 ≤ hlen) :
    imap_parse_path IMAP_PORT USE_SSL ('{' :: (h ++ '}' :: m)) hlen true true =
      some { host := h.take (min h.length (hlen - 1))
             port := some IMAP_PORT
             socktype := some SockType.M_NEW_SOCKET
             mbox := m } := by
  have hsc := host_scan h m '}' hh (by decide)
  have hpk := host_take_peek h hlen hne
    (fun c hc => by
      obtain ⟨h0, h1, h2, h3⟩ := hh c hc
      simp [hostStop, h0, h1, h2, h3]) hl
  rw [parse_path_brace, hsc]
  simp only [hpk, and_false, if_false, peek_cons, if_true]
  rw [if_neg (by decide), port_stage_skip _ _ (by rw [peek_cons]; decide)]
  simp only []
  rw [transport_stage_skip _ _ _ _ (by rw [peek_cons]; decide)]
  simp [take_min_length]

theorem parse_path_plain_witness :
    imap_parse_path 143 true
        ('{' :: (['m', 'a', 'i', 'l'] ++ '}' :: ['I', 'N', 'B', 'O', 'X'])) 3 true true =
      some { host := ['m', 'a', 'i', 'l'].take (min ['m', 'a', 'i', 'l'].length (3 - 1))
             port := some 143
             socktype := some SockType.M_NEW_SOCKET
             mbox := ['I', 'N', 'B', 'O', 'X'] } :=
  parse_path_plain 143 true ['m', 'a', 'i', 'l'] ['I', 'N', 'B', 'O', 'X'] 3
    (by decide) (by decide) (by decide)

/-- C6: in a build with `USE_SSL`, for a valid host `h` that fits the host
capacity, any mailbox `m` and a port written as a non-empty run of decimal
digits `ds` of value between 1 and 65535, parsing `{h:ds/ssl}m` succeeds
with the TLS socket kind and the explicit port, and parsing `{h/ssl}m`
succeeds with the TLS socket kind and port 993. -/
theorem parse_path_ssl (IMAP_PORT : Int) (h ds m : List Char) (hlen : Nat)
    (hne : h ≠ [])
    (hh : ∀ c ∈ h, c ≠ '\x00' ∧ c ≠ '}' ∧ c ≠ ':' ∧ c ≠ '/')
    (hfit : h.length < hlen)
    (hds : ds ≠ []) (hdig : ∀ c ∈ ds, c.isDigit = true)
    (hlo : 1 ≤ decimalValue ds) (hhi : decimalValue ds ≤ 65535) :
    imap_parse_path IMAP_PORT true
        ('{' :: (h ++ ':' :: (ds ++ '/' :: 's' :: 's' :: 'l' :: '}' :: m)))
        hlen true true =
      some { host := h
             port := some (decimalValue ds : Int)
             socktype := some SockType.M_NEW_SSL_SOCKET
             mbox := m } ∧
    imap_parse_path IMAP_PORT true
        ('{' :: (h ++ '/' :: 's' :: 's' :: 'l' :: '}' :: m)) hlen true true =
      some { host := h
             port := some 993
             socktype := some SockType.M_NEW_SSL_SOCKET
             mbox := m } := by
  have hl : 2 ≤ hlen := by
    cases h with
    | nil => exact absurd rfl hne
    | cons c t => simp only [List.length_cons] at hfit; omega
  have hpk := host_take_peek h hlen hne
    (fun c hc => by
      obtain ⟨h0, h1, h2, h3⟩ := hh c hc
      simp [hostStop, h0, h1, h2, h3]) hl
  have htk := take_of_fits h hlen hfit
  have hv : (decimalValue ds : Int) ≠ 0 := by
    have : decimalValue ds ≠ 0 := by omega
    exact_mod_cast this
  have _ := hds
  constructor
  · have hsc := host_scan h (ds ++ '/' :: 's' :: 's' :: 'l' :: '}' :: m) ':' hh
      (by decide)
    have hps := scan_until_append portStop ds ('/' :: 's' :: 's' :: 'l' :: '}' :: m)
      (fun c hc => (isDigit_not_special c (hdig c hc)).2.2.2.2)
      (by rw [peek_cons]; decide)
    have hport : port_stage (some 0)
        (':' :: (ds ++ '/' :: 's' :: 's' :: 'l' :: '}' :: m)) =
        some (some (decimalValue ds : Int), '/' :: 's' :: 's' :: 'l' :: '}' :: m) := by
      simp [port_stage, peek_cons, hps, atoi_of_digits ds hdig (by omega), hv]
    rw [parse_path_brace, hsc]
    simp only [hpk, and_false, if_false, peek_cons, if_true]
    rw [if_neg (by decide), hport]
    simp only []
    rw [transport_stage_ssl]
    simp [htk, hv]
  · have hsc := host_scan h ('s' :: 's' :: 'l' :: '}' :: m) '/' hh (by decide)
    rw [parse_path_brace, hsc]
    simp only [hpk, and_false, if_false, peek_cons, if_true]
    rw [if_neg (by decide), port_stage_skip _ _ (by rw [peek_cons]; decide)]
    simp only []
    rw [transport_stage_ssl]
    simp [htk, IMAP_SSL_PORT]

theorem parse_path_ssl_witness :
    decimalValue ['9', '9', '3'] = 993 ∧
    imap_parse_path 143 true
        ('{' :: (['h', 'q'] ++ ':' ::
          (['9', '9', '3'] ++ '/' :: 's' :: 's' :: 'l' :: '}' :: ['W', '/', 'T'])))
        64 true true =
      some { host := ['h', 'q']
             port := some (decimalValue ['9', '9', '3'] : Int)
             socktype := some SockType.M_NEW_SSL_SOCKET
             mbox := ['W', '/', 'T'] } ∧
    imap_parse_path 143 true
        ('{' :: (['h', 'q'] ++ '/' :: 's' :: 's' :: 'l' :: '}' :: ['W', '/', 'T']))
        64 true true =
      some { host := ['h', 'q']
             port := some 993
             socktype := some SockType.M_NEW_SSL_SOCKET
             mbox := ['W', '/', 'T'] } :=
  ⟨by decide,
    parse_path_ssl 143 ['h', 'q'] ['9', '9', '3'] ['W', '/', 'T'] 64
      (by decide) (by decide) (by decide) (by decide) (by decide) (by decide)
      (by decide)⟩

/-- C8: a locator that does not begin with `{`, or that contains no `}`
anywhere, makes `imap_parse_path` fail, whatever the host capacity, the
build and the requested outputs. -/
theorem parse_path_malformed (IMAP_PORT : Int) (USE_SSL : Bool)
    (path : List Char) (hlen : Nat) (hasPort hasSock : Bool)
    (h : peek path ≠ '{' ∨ '}' ∉ path) :
    imap_parse_path IMAP_PORT USE_SSL path hlen hasPort hasSock = none := by
  by_cases hb : peek path = '{'
  · have hno : '}' ∉ path := h.resolve_left (fun hn => hn hb)
    cases path with
    | nil => exact absurd hb (by decide)
    | cons c body =>
      rw [peek_cons] at hb
      subst hb
      have hsub : ∀ c ∈ (scan_until hostStop body).2, c ∈ body :=
        scan_until_mem hostStop body
      have hno1 : '}' ∉ (scan_until hostStop body).2 :=
        fun hc => hno (List.mem_cons_of_mem _ (hsub _ hc))
      by_cases hnul : peek (scan_until hostStop body).2 = '\x00'
      · exact parse_path_nul_after_host _ _ _ _ _ _ hnul
      · apply parse_path_transport_none
        intro port1 pc1 hp
        obtain ⟨h1, h2⟩ := port_stage_no_close _ port1 _ pc1 hnul
          (scan_until_peek hostStop (by decide) body) hno1 hp
        exact transport_stage_no_close _ _ _ _ h1 h2
  · exact parse_path_no_brace _ _ _ _ _ _ hb

theorem parse_path_malformed_witness :
    imap_parse_path 143 true ['{', 'h', ':', '9', '/', 's', 's', 'l'] 64 true true =
      none :=
  parse_path_malformed 143 true ['{', 'h', ':', '9', '/', 's', 's', 'l'] 64 true true
    (Or.inr (by decide))

/-- C9: with a host capacity of at least 1, `imap_parse_path` fails whenever
the host loop stores no character: in particular when `{` is directly
followed by `}`, `:` or `/`, and for every locator when the capacity is 1. -/
theorem parse_path_empty_host (IMAP_PORT : Int) (USE_SSL : Bool)
    (path : List Char) (hlen : Nat) (hasPort hasSock : Bool) (hl : 1 ≤ hlen)
    (h : (host_loop hlen [] path.tail).1 = [] ∨
      (∃ c rest, path = '{' :: c :: rest ∧ (c = '}' ∨ c = ':' ∨ c = '/')) ∨
      hlen = 1) :
    imap_parse_path IMAP_PORT USE_SSL path hlen hasPort hasSock = none := by
  have hempty : (host_loop hlen [] path.tail).1 = [] := by
    rcases h with h | ⟨c, rest, rfl, hc⟩ | h
    · exact h
    · have hs : hostStop c = true := by
        rcases hc with rfl | rfl | rfl <;> decide
      simp [host_loop, hs]
    · rw [host_loop_fst, h]
      simp
  have hl0 : hlen ≠ 0 := by omega
  simp [imap_parse_path, hempty, peek, hl0]

theorem parse_path_empty_host_witness :
    imap_parse_path 143 true ['{', '}', 'x'] 64 true true = none ∧
    imap_parse_path 143 true ['{', 'h', '}', 'x'] 1 true true = none :=
  ⟨parse_path_empty_host 143 true ['{', '}', 'x'] 64 true true (by decide)
      (Or.inr (Or.inl ⟨'}', ['x'], rfl, Or.inl rfl⟩)),
    parse_path_empty_host 143 true ['{', 'h', '}', 'x'] 1 true true (by decide)
      (Or.inr (Or.inr rfl))⟩

/-- C10: when the host, and the optional `:port`, of a locator is followed
by `/` and a transport token `t` that runs up to the next `}`,
`imap_parse_path` fails whenever `t` is not exactly `ssl`. -/
theorem parse_path_unsupported_transport (IMAP_PORT : Int) (USE_SSL : Bool)
    (h pre t m : List Char) (hlen : Nat) (hasPort hasSock : Bool)
    (hh : ∀ c ∈ h, c ≠ '}' ∧ c ≠ ':' ∧ c ≠ '/')
    (hpre : pre = [] ∨ ∃ p, pre = ':' :: p ∧ ∀ c ∈ p, c ≠ '}' ∧ c ≠ '/')
    (ht : ∀ c ∈ t, c ≠ '}')
    (hne : t ≠ ['s', 's', 'l']) :
    imap_parse_path IMAP_PORT USE_SSL
      ('{' :: (h ++ (pre ++ '/' :: (t ++ '}' :: m)))) hlen hasPort hasSock =
      none := by
  rcases hpre with rfl | ⟨p, rfl, hp⟩
  · rw [List.nil_append]
    rcases host_scan_or h (t ++ '}' :: m) '/' hh (by decide) with hsc | hsc
    · apply parse_path_transport_none
      intro port1 pc1 hps
      rw [hsc, port_stage_skip _ _ (by rw [peek_cons]; decide)] at hps
      obtain ⟨_, rfl⟩ := Prod.mk.inj (Option.some.inj hps)
      exact transport_stage_not_ssl _ _ _ t m ht hne
    · exact parse_path_nul_after_host _ _ _ _ _ _ hsc
  · rw [List.cons_append]
    rcases host_scan_or h (p ++ '/' :: (t ++ '}' :: m)) ':' hh (by decide) with hsc | hsc
    · apply parse_path_transport_none
      intro port1 pc1 hps
      rw [hsc] at hps
      obtain ⟨rfl, _, _⟩ :=
        port_stage_colon _ port1 p (t ++ '}' :: m) pc1 '/' (Or.inr rfl) hp hps
      exact transport_stage_not_ssl _ _ _ t m ht hne
    · exact parse_path_nul_after_host _ _ _ _ _ _ hsc

theorem parse_path_unsupported_transport_witness :
    imap_parse_path 143 true
      ('{' :: (['h'] ++ ([':', '9'] ++ '/' :: (['S', 'S', 'L'] ++ '}' :: ['x']))))
      64 true true = none ∧
    imap_parse_path 143 true
      ('{' :: (['h'] ++ ([] ++ '/' :: (['s', 's', 'l', ' '] ++ '}' :: ['x']))))
      64 true true = none ∧
    imap_parse_path 143 true
      ('{' :: (['h'] ++ ([] ++ '/' :: ([] ++ '}' :: ['x']))))
      64 true true = none :=
  ⟨parse_path_unsupported_transport 143 true ['h'] [':', '9'] ['S', 'S', 'L'] ['x']
      64 true true (by decide) (Or.inr ⟨['9'], rfl, by decide⟩) (by decide)
      (by decide),
    parse_path_unsupported_transport 143 true ['h'] [] ['s', 's', 'l', ' '] ['x']
      64 true true (by decide) (Or.inl rfl) (by decide) (by decide),
    parse_path_unsupported_transport 143 true ['h'] [] [] ['x']
      64 true true (by decide) (Or.inl rfl) (by decide) (by decide)⟩

/-! ## Lemmas on `imap_qualify_path` -/

theorem digitChar_spec (k : Nat) (hk : k < 10) :
    (Nat.digitChar k).isDigit = true ∧ (Nat.digitChar k).toNat - '0'.toNat = k := by
  interval_cases k <;> decide

theorem decimalValue_snoc (ds : List Char) (d : Char) :
    decimalValue (ds ++ [d]) = (d.toNat - '0'.toNat) + 10 * decimalValue ds := by
  simp [decimalValue, Nat.ofDigits_cons]

theorem toDigitsCore_spec :
    ∀ (fuel n : Nat) (acc : List Char), n < fuel →
      ∃ ds, Nat.toDigitsCore 10 fuel n acc = ds ++ acc ∧ ds ≠ [] ∧
        (∀ c ∈ ds, c.isDigit = true) ∧ decimalValue ds = n := by
  intro fuel
  induction fuel with
  | zero => intro n acc h; omega
  | succ fuel ih =>
    intro n acc hn
    obtain ⟨hd1, hd2⟩ := digitChar_spec (n % 10) (Nat.mod_lt _ (by decide))
    by_cases h0 : n / 10 = 0
    · refine ⟨[Nat.digitChar (n % 10)], ?_, by simp, ?_, ?_⟩
      · simp [Nat.toDigitsCore, h0]
      · intro c hc
        rw [List.mem_singleton] at hc
        rw [hc]; exact hd1
      · have := decimalValue_snoc [] (Nat.digitChar (n % 10))
        simp only [List.nil_append] at this
        rw [this, hd2]
        simp only [decimalValue, List.reverse_nil, List.map_nil, Nat.ofDigits_nil]
        omega
    · obtain ⟨ds, he, _, hdig, hval⟩ :=
        ih (n / 10) (Nat.digitChar (n % 10) :: acc) (by omega)
      refine ⟨ds ++ [Nat.digitChar (n % 10)], ?_, by simp, ?_, ?_⟩
      · simp [Nat.toDigitsCore, h0, he]
      · intro c hc
        rcases List.mem_append.mp hc with h | h
        · exact hdig c h
        · rw [List.mem_singleton] at h
          rw [h]; exact hd1
      · rw [decimalValue_snoc, hd2, hval]
        omega

theorem toDigits_spec (n : Nat) :
    Nat.toDigits 10 n ≠ [] ∧ (∀ c ∈ Nat.toDigits 10 n, c.isDigit = true) ∧
      decimalValue (Nat.toDigits 10 n) = n := by
  obtain ⟨ds, he, hne, hdig, hval⟩ := toDigitsCore_spec (n + 1) n [] (by omega)
  have : Nat.toDigits 10 n = ds := by simpa [Nat.toDigits] using he
  rw [this]
  exact ⟨hne, hdig, hval⟩

theorem hostStop_of_valid (h : List Char)
    (hh : ∀ c ∈ h, c ≠ '\x00' ∧ c ≠ '}' ∧ c ≠ ':' ∧ c ≠ '/') :
    ∀ c ∈ h, hostStop c = false := by
  intro c hc
  obtain ⟨h0, h1, h2, h3⟩ := hh c hc
  simp [hostStop, h0, h1, h2, h3]

theorem two_le_of_fits (h : List Char) (hlen : Nat) (hne : h ≠ [])
    (hfit : h.length < hlen) : 2 ≤ hlen := by
  cases h with
  | nil => exact absurd rfl hne
  | cons c t => simp only [List.length_cons] at hfit; omega

theorem parse_brace_host (IMAP_PORT : Int) (USE_SSL : Bool) (h m : List Char)
    (hlen : Nat) (hne : h ≠ [])
    (hh : ∀ c ∈ h, c ≠ '\x00' ∧ c ≠ '}' ∧ c ≠ ':' ∧ c ≠ '/')
    (hfit : h.length < hlen) :
    imap_parse_path IMAP_PORT USE_SSL ('{' :: (h ++ '}' :: m)) hlen true true =
      some { host := h
             port := some IMAP_PORT
             socktype := some SockType.M_NEW_SOCKET
             mbox := m } := by
  have hsc := host_scan h m '}' hh (by decide)
  have hpk := host_take_peek h hlen hne (hostStop_of_valid h hh)
    (two_le_of_fits h hlen hne hfit)
  rw [parse_path_brace, hsc]
  simp only [hpk, and_false, if_false, peek_cons, if_true]
  rw [if_neg (by decide), port_stage_skip _ _ (by rw [peek_cons]; decide)]
  simp only []
  rw [transport_stage_skip _ _ _ _ (by rw [peek_cons]; decide)]
  simp [take_of_fits h hlen hfit]

theorem parse_brace_host_port (IMAP_PORT : Int) (USE_SSL : Bool)
    (h ds m : List Char) (hlen : Nat) (hne : h ≠ [])
    (hh : ∀ c ∈ h, c ≠ '\x00' ∧ c ≠ '}' ∧ c ≠ ':' ∧ c ≠ '/')
    (hfit : h.length < hlen)
    (hdig : ∀ c ∈ ds, c.isDigit = true)
    (hlo : 1 ≤ decimalValue ds) (hhi : decimalValue ds < 2147483648) :
    imap_parse_path IMAP_PORT USE_SSL ('{' :: (h ++ ':' :: (ds ++ '}' :: m)))
        hlen true true =
      some { host := h
             port := some (decimalValue ds : Int)
             socktype := some SockType.M_NEW_SOCKET
             mbox := m } := by
  have hpk := host_take_peek h hlen hne (hostStop_of_valid h hh)
    (two_le_of_fits h hlen hne hfit)
  have hv : (decimalValue ds : Int) ≠ 0 := by
    have : decimalValue ds ≠ 0 := by omega
    exact_mod_cast this
  have hsc := host_scan h (ds ++ '}' :: m) ':' hh (by decide)
  have hps := scan_until_append portStop ds ('}' :: m)
    (fun c hc => (isDigit_not_special c (hdig c hc)).2.2.2.2)
    (by rw [peek_cons]; decide)
  have hport : port_stage (some 0) (':' :: (ds ++ '}' :: m)) =
      some (some (decimalValue ds : Int), '}' :: m) := by
    simp [port_stage, peek_cons, hps, atoi_of_digits ds hdig hhi, hv]
  rw [parse_path_brace, hsc]
  simp only [hpk, and_false, if_false, peek_cons, if_true]
  rw [if_neg (by decide), hport]
  simp only []
  rw [transport_stage_skip _ _ _ _ (by rw [peek_cons]; decide)]
  simp [take_of_fits h hlen hfit, hv]

theorem snprintf_out_fits (len : Nat) (text : List Char) (h : text.length < len) :
    snprintf_out len text = text :=
  List.take_of_length_le (by omega)

/-! ## Lemmas on `imap_fix_path` -/

theorem isSep_nul (d : Char) (hd : d ≠ '\x00') : isSep d '\x00' = false := by
  have h1 : ('\x00' : Char) ≠ '/' := by decide
  simp [isSep, h1, Ne.symm hd]

theorem skip_sep_length (d : Char) :
    ∀ l : List Char, (skip_sep d l).length ≤ l.length := by
  intro l
  induction l with
  | nil => simp [skip_sep]
  | cons c l ih =>
    by_cases hc : isSep d c = true
    · simp only [skip_sep, hc, if_true, List.length_cons]; omega
    · simp [skip_sep, hc]

theorem cstr_skip_sep (d : Char) (hd : d ≠ '\x00') :
    ∀ l : List Char, cstr (skip_sep d l) = skip_sep d (cstr l) := by
  intro l
  induction l with
  | nil => simp [skip_sep, cstr]
  | cons c l ih =>
    by_cases h0 : c = '\x00'
    · subst h0
      simp [skip_sep, cstr, isSep_nul d hd]
    · by_cases hc : isSep d c = true
      · simp [skip_sep, cstr, h0, hc, ih]
      · simp [skip_sep, cstr, h0, hc]

theorem canon_body_plain (d c : Char) (l : List Char) (hc : isSep d c = false) :
    canon_body d (c :: l) = c :: canon_body d l := by
  cases l with
  | nil => simp [canon_body, hc]
  | cons e t => simp [canon_body, hc]

theorem canon_body_sep (d : Char) :
    ∀ (l : List Char) (c : Char), isSep d c = true →
      canon_body d (c :: l) = d :: canon_body d (skip_sep d l) := by
  intro l
  induction l with
  | nil => intro c hc; simp [canon_body, skip_sep, hc]
  | cons e t ih =>
    intro c hc
    by_cases he : isSep d e = true
    · simp [canon_body, skip_sep, hc, he, ih e he]
    · simp [canon_body, skip_sep, hc, he]

theorem fix_loop_eq_canon (w : Nat) (d : Char) (plen : Nat) (hd : d ≠ '\x00')
    (h1 : 1 ≤ plen) (hw : plen < 2 ^ w) :
    ∀ (fuel x : Nat) (m : List Char), m.length ≤ fuel → x ≤ plen - 1 →
      fix_loop w d plen fuel x m = (canon_body d (cstr m)).take (plen - 1 - x) := by
  have hsub : size_sub w plen 1 = plen - 1 := size_sub_of_le w plen 1 h1 hw
  intro fuel
  induction fuel with
  | zero =>
    intro x m hm _
    have : m = [] := List.length_eq_zero.mp (by omega)
    subst this
    simp [fix_loop, cstr, canon_body]
  | succ fuel ih =>
    intro x m hm hx
    cases m with
    | nil => simp [fix_loop, peek, cstr, canon_body]
    | cons c rest =>
      simp only [List.length_cons] at hm
      by_cases h0 : c = '\x00'
      · simp [fix_loop, peek, cstr, canon_body, h0]
      · by_cases hxl : x < plen - 1
        · have hk : plen - 1 - x = (plen - 1 - (x + 1)) + 1 := by omega
          by_cases hc : isSep d c = true
          · have hlen := skip_sep_length d rest
            have := ih (x + 1) (skip_sep d rest) (by omega) (by omega)
            simp only [fix_loop, peek, h0, hsub, hxl, not_true_eq_false, or_self,
              if_false, hc, if_true, skip_sep, this, cstr]
            rw [canon_body_sep d _ c hc, hk, List.take_succ_cons,
              cstr_skip_sep d hd]
          · have hc2 : isSep d c = false := by simpa using hc
            have := ih (x + 1) rest (by omega) (by omega)
            simp only [fix_loop, peek, h0, hsub, hxl, not_true_eq_false, or_self,
              if_false, hc2, Bool.false_eq_true, List.tail_cons, this, cstr]
            rw [canon_body_plain d c _ hc2, hk, List.take_succ_cons]
        · have hk : plen - 1 - x = 0 := by omega
          simp [fix_loop, hsub, hxl, hk]

theorem chain_cons_head (R : Char → Char → Prop) (a : Char) (l : List Char)
    (hl : List.Chain' R l) (hh : ∀ b, l.head? = some b → R a b) :
    List.Chain' R (a :: l) := by
  cases l with
  | nil => exact List.chain'_singleton a
  | cons b t => exact List.chain'_cons.mpr ⟨hh b rfl, hl⟩

theorem canon_body_no_adjacent (d : Char) :
    ∀ (n : Nat) (l : List Char), l.length ≤ n → NoAdjacentSep d (canon_body d l) := by
  intro n
  induction n with
  | zero =>
    intro l hl
    have : l = [] := List.length_eq_zero.mp (by omega)
    subst this
    simp [NoAdjacentSep, canon_body]
  | succ n ih =>
    intro l hl
    match l, hl with
    | [], _ => simp [NoAdjacentSep, canon_body]
    | [c], _ =>
      by_cases hc : isSep d c = true <;> simp [NoAdjacentSep, canon_body, hc]
    | c :: e :: t, hl =>
      simp only [List.length_cons] at hl
      have ihe := ih (e :: t) (by simp only [List.length_cons]; omega)
      by_cases hc : isSep d c = true
      · by_cases he : isSep d e = true
        · simpa [canon_body, hc, he] using ihe
        · have he2 : isSep d e = false := by simpa using he
          have hce : canon_body d (c :: e :: t) = d :: canon_body d (e :: t) := by
            simp [canon_body, hc, he2]
          rw [hce]
          apply chain_cons_head _ _ _ ihe
          intro b hb
          rw [canon_body_plain d e t he2] at hb
          simp only [List.head?_cons, Option.some.injEq] at hb
          subst hb
          simp [he2]
      · have hc2 : isSep d c = false := by simpa using hc
        rw [canon_body_plain d c _ hc2]
        apply chain_cons_head _ _ _ ihe
        intro b _
        simp [hc2]

/-! ## The path codec: claims C11 to C13 -/

/-- C11: `imap_qualify_path` and `imap_parse_path` are inverse to each
other.  For a non-empty host `h` without NUL, `}`, `:` and `/` that fits the
host capacity, a port `p` between 1 and 65535, texts `base` and `name`, and
a destination that holds the whole result, the output is `{h}base name` when
`p` is `IMAP_PORT` and `{h:p}base name`, with `p` in decimal, otherwise; and
parsing that output gives host `h`, port `p` and mailbox `base ++ name`. -/
theorem qualify_parse_inverse (IMAP_PORT : Int) (USE_SSL : Bool)
    (h base name : List Char) (p hlen len : Nat) (hne : h ≠ [])
    (hh : ∀ c ∈ h, c ≠ '\x00' ∧ c ≠ '}' ∧ c ≠ ':' ∧ c ≠ '/')
    (hfit : h.length < hlen) (hlo : 1 ≤ p) (hhi : p ≤ 65535)
    (hb : ∀ c ∈ base, c ≠ '\x00') (hn : ∀ c ∈ name, c ≠ '\x00')
    (hroom : h.length + (Nat.toDigits 10 p).length + base.length + name.length + 3
      < len) :
    imap_qualify_path IMAP_PORT len h p (some base) (some name) =
      (if (p : Int) = IMAP_PORT then '{' :: (h ++ '}' :: (base ++ name))
       else '{' :: (h ++ ':' :: (Nat.toDigits 10 p ++ '}' :: (base ++ name)))) ∧
    decimalValue (Nat.toDigits 10 p) = p ∧
    imap_parse_path IMAP_PORT USE_SSL
        (imap_qualify_path IMAP_PORT len h p (some base) (some name))
        hlen true true =
      some { host := h
             port := some (p : Int)
             socktype := some SockType.M_NEW_SOCKET
             mbox := base ++ name } := by
  obtain ⟨hdne, hdig, hval⟩ := toDigits_spec p
  have hch : cstr h = h := cstr_of_no_nul h (fun c hc => (hh c hc).1)
  have hcb : cstr base = base := cstr_of_no_nul base hb
  have hcn : cstr name = name := cstr_of_no_nul name hn
  have hfmt : fmt_d (p : Int) = Nat.toDigits 10 p := by
    simp [fmt_d]
  have hq : imap_qualify_path IMAP_PORT len h p (some base) (some name) =
      (if (p : Int) = IMAP_PORT then '{' :: (h ++ '}' :: (base ++ name))
       else '{' :: (h ++ ':' :: (Nat.toDigits 10 p ++ '}' :: (base ++ name)))) := by
    unfold imap_qualify_path
    simp only [NONULL, hch, hcb, hcn, hfmt]
    split_ifs
    · apply snprintf_out_fits
      simp only [List.length_cons, List.length_append]
      omega
    · apply snprintf_out_fits
      simp only [List.length_cons, List.length_append]
      omega
  refine ⟨hq, hval, ?_⟩
  rw [hq]
  by_cases hp : (p : Int) = IMAP_PORT
  · rw [if_pos hp, hp]
    exact parse_brace_host IMAP_PORT USE_SSL h (base ++ name) hlen hne hh hfit
  · rw [if_neg hp]
    have := parse_brace_host_port IMAP_PORT USE_SSL h (Nat.toDigits 10 p)
      (base ++ name) hlen hne hh hfit hdig (by omega) (by omega)
    rw [hval] at this
    exact this

theorem qualify_parse_inverse_witness :
    imap_qualify_path 143 64 ['h', 'q'] 993 (some ['a', '/']) (some ['b']) =
      ['{', 'h', 'q', ':', '9', '9', '3', '}', 'a', '/', 'b'] ∧
    imap_parse_path 143 true
        (imap_qualify_path 143 64 ['h', 'q'] (993 : Nat) (some ['a', '/']) (some ['b']))
        16 true true =
      some { host := ['h', 'q']
             port := some ((993 : Nat) : Int)
             socktype := some SockType.M_NEW_SOCKET
             mbox := ['a', '/'] ++ ['b'] } :=
  ⟨by decide,
    (qualify_parse_inverse 143 true ['h', 'q'] ['a', '/'] ['b'] 993 16 64
      (by decide) (by decide) (by decide) (by decide) (by decide) (by decide)
      (by decide) (by decide)).2.2⟩

/-- C12: for a non-empty path, a delimiter other than NUL and a capacity of
at least 1, no two neighbouring characters of the output of `imap_fix_path`
are both separators (`/` or the delimiter); so no pair of separators occurs
as a substring, and with delimiter `.` neither `..` nor `//` does. -/
theorem fix_path_no_adjacent_sep (w : Nat) (d : Char) (path : List Char)
    (plen : Nat) (hne : peek path ≠ '\x00') (hd : d ≠ '\x00') (h1 : 1 ≤ plen)
    (hw : plen < 2 ^ w) :
    NoAdjacentSep d (imap_fix_path w d (some path) plen) ∧
    (∀ a b, isSep d a = true → isSep d b = true →
      ¬ [a, b] <:+: imap_fix_path w d (some path) plen) ∧
    (d = '.' → ¬ ['.', '.'] <:+: imap_fix_path w d (some path) plen ∧
      ¬ ['/', '/'] <:+: imap_fix_path w d (some path) plen) := by
  have hout : imap_fix_path w d (some path) plen =
      (canon_body d (cstr path)).take (plen - 1) := by
    simp only [imap_fix_path, hne, if_false]
    rw [fix_loop_eq_canon w d plen hd h1 hw path.length 0 path (le_refl _)
      (Nat.zero_le _)]
    simp
  have hchain : NoAdjacentSep d (imap_fix_path w d (some path) plen) := by
    rw [hout]
    exact List.Chain'.take (canon_body_no_adjacent d _ _ (le_refl _)) _
  have hpair : ∀ a b, isSep d a = true → isSep d b = true →
      ¬ [a, b] <:+: imap_fix_path w d (some path) plen := by
    intro a b ha hb hin
    have hc : List.Chain' (fun a b => ¬ (isSep d a = true ∧ isSep d b = true)) [a, b] :=
      List.Chain'.infix hchain hin
    simp [ha, hb] at hc
  refine ⟨hchain, hpair, ?_⟩
  intro hdot
  subst hdot
  exact ⟨hpair '.' '.' (by decide) (by decide), hpair '/' '/' (by decide) (by decide)⟩

theorem fix_path_no_adjacent_sep_witness :
    imap_fix_path 64 '.' (some ['/', '.', 'a', '/', '/', 'b']) 16 = ['.', 'a', '.', 'b'] ∧
    NoAdjacentSep '.' (imap_fix_path 64 '.' (some ['/', '.', 'a', '/', '/', 'b']) 16) :=
  ⟨by decide,
    (fix_path_no_adjacent_sep 64 '.' ['/', '.', 'a', '/', '/', 'b'] 16 (by decide)
      (by decide) (by decide) (by decide)).1⟩

/-- C13: for every path, a delimiter other than NUL and a capacity of at
least 1, the output of `imap_fix_path` is the first `plen - 1` characters of
the canonical form of the path; so it has at most `plen - 1` characters, and
the empty path (or a null pointer) gives `INBOX` when the capacity is at
least 6. -/
theorem fix_path_eq_canon (w : Nat) (d : Char) (path : List Char) (plen : Nat)
    (hd : d ≠ '\x00') (h1 : 1 ≤ plen) (hw : plen < 2 ^ w) :
    imap_fix_path w d (some path) plen = (canon (cstr path) d).take (plen - 1) ∧
    (imap_fix_path w d (some path) plen).length ≤ plen - 1 ∧
    (6 ≤ plen → imap_fix_path w d (some []) plen = ['I', 'N', 'B', 'O', 'X'] ∧
      imap_fix_path w d none plen = ['I', 'N', 'B', 'O', 'X']) := by
  have hout : imap_fix_path w d (some path) plen =
      (canon (cstr path) d).take (plen - 1) := by
    by_cases hne : peek path = '\x00'
    · have hc : cstr path = [] := by
        cases path with
        | nil => rfl
        | cons c t =>
          rw [peek_cons] at hne
          simp [cstr, hne]
      simp [imap_fix_path, hne, hc, canon, strfcpy, INBOX, cstr]
    · have hc : cstr path ≠ [] := by
        cases path with
        | nil => exact absurd rfl hne
        | cons c t =>
          rw [peek_cons] at hne
          simp [cstr, hne]
      simp only [imap_fix_path, hne, if_false, canon, hc]
      rw [fix_loop_eq_canon w d plen hd h1 hw path.length 0 path (le_refl _)
        (Nat.zero_le _)]
      simp
  refine ⟨hout, ?_, ?_⟩
  · rw [hout, List.length_take]
    exact Nat.min_le_left _ _
  · intro h6
    have hk : plen - 1 = (plen - 6) + 5 := by omega
    constructor
    · simp [imap_fix_path, peek, strfcpy, INBOX, cstr, hk]
    · simp [imap_fix_path, strfcpy, INBOX, cstr, hk]

theorem fix_path_eq_canon_witness :
    canon (cstr ['a', '/', '/', 'b', '.', '/', 'c']) '.' = ['a', '.', 'b', '.', 'c'] ∧
    imap_fix_path 64 '.' (some ['a', '/', '/', 'b', '.', '/', 'c']) 4 =
      (canon (cstr ['a', '/', '/', 'b', '.', '/', 'c']) '.').take (4 - 1) :=
  ⟨by decide,
    (fix_path_eq_canon 64 '.' ['a', '/', '/', 'b', '.', '/', 'c'] 4 (by decide)
      (by decide) (by decide)).1⟩

/-! ## Lemmas on `imap_get_literal_count` -/

theorem digit_run_eq_takeWhile :
    ∀ l : List Char, digit_run l = l.takeWhile Char.isDigit := by
  intro l
  induction l with
  | nil => rfl
  | cons c l ih =>
    by_cases hc : c.isDigit = true
    · simp [digit_run, List.takeWhile, hc, ih]
    · simp [digit_run, List.takeWhile, hc]

theorem digit_run_digits : ∀ (l : List Char), ∀ c ∈ digit_run l, c.isDigit = true := by
  intro l c hc
  rw [digit_run_eq_takeWhile] at hc
  exact List.mem_takeWhile_imp hc

theorem atoi_digit_run (l : List Char) :
    atoi (digit_run l) =
      int_of_long (strtol_clamp (decimalValue (digit_run l) : Int)) := by
  unfold atoi
  rw [strtol_exact_of_digits _ (digit_run_digits l)]

theorem strchr_index_split (c : Char) :
    ∀ (buf : List Char) (i : Nat), strchr_index c buf = some i →
      ∃ pre rest, buf = pre ++ c :: rest ∧ pre.length = i ∧
        ∀ x ∈ pre, x ≠ c ∧ x ≠ '\x00' := by
  intro buf
  induction buf with
  | nil => intro i h; simp [strchr_index] at h
  | cons x buf ih =>
    intro i h
    by_cases h1 : x = c
    · subst h1
      simp only [strchr_index, if_true, Option.some.injEq] at h
      exact ⟨[], buf, rfl, by simpa using h, by simp⟩
    · by_cases h2 : x = '\x00'
      · subst h2
        simp [strchr_index, h1] at h
      · simp only [strchr_index, h1, h2, if_false, Option.map_eq_some'] at h
        obtain ⟨j, hj, hji⟩ := h
        obtain ⟨pre, rest, hb, hl, hclean⟩ := ih j hj
        refine ⟨x :: pre, rest, by rw [hb]; rfl, by simp only [List.length_cons]; omega, ?_⟩
        intro y hy
        rcases List.mem_cons.mp hy with hy | hy
        · rw [hy]; exact ⟨h1, h2⟩
        · exact hclean y hy

theorem strchr_index_append (c : Char) :
    ∀ (pre rest : List Char), (∀ x ∈ pre, x ≠ c ∧ x ≠ '\x00') →
      strchr_index c (pre ++ c :: rest) = some pre.length := by
  intro pre
  induction pre with
  | nil => intro rest _; simp [strchr_index]
  | cons x pre ih =>
    intro rest h
    obtain ⟨h1, h2⟩ := h x (List.mem_cons_self _ _)
    have := ih rest (fun y hy => h y (List.mem_cons_of_mem _ hy))
    simp [strchr_index, h1, h2, this]

theorem strchr_index_none (c : Char) (hc : c ≠ '\x00') :
    ∀ buf : List Char, strchr_index c buf = none ↔ c ∉ cstr buf := by
  intro buf
  induction buf with
  | nil => simp [strchr_index, cstr]
  | cons x buf ih =>
    by_cases h1 : x = c
    · subst h1
      simp [strchr_index, cstr, hc]
    · by_cases h2 : x = '\x00'
      · simp [strchr_index, cstr, h1, h2, Ne.symm hc]
      · simp [strchr_index, cstr, h1, h2, ih, Ne.symm h1]

/-! ## The literal length parser: claims C14 and C15 -/

theorem literal_count_at (pre rest : List Char)
    (hpre : ∀ x ∈ pre, x ≠ '{' ∧ x ≠ '\x00') :
    imap_get_literal_count (pre ++ '{' :: rest) =
      some { bytes := int_of_long
               (strtol_clamp (decimalValue (rest.takeWhile Char.isDigit) : Int))
             stop := pre.length + 1 + (rest.takeWhile Char.isDigit).length } := by
  have hi := strchr_index_append '{' pre rest hpre
  have hdrop : (pre ++ '{' :: rest).drop (pre.length + 1) = rest := by
    rw [List.drop_append_eq_append_drop]
    simp
  simp only [imap_get_literal_count, hi, hdrop, atoi_digit_run]
  rw [digit_run_eq_takeWhile]

theorem literal_count_none_iff (buf : List Char) :
    imap_get_literal_count buf = none ↔ '{' ∉ cstr buf := by
  rw [← strchr_index_none '{' (by decide) buf]
  unfold imap_get_literal_count
  cases strchr_index '{' buf <;> simp

theorem takeWhile_digit_nil (rest : List Char) (hnd : (peek rest).isDigit = false) :
    rest.takeWhile Char.isDigit = [] := by
  cases rest with
  | nil => rfl
  | cons c t =>
    rw [peek_cons] at hnd
    simp [List.takeWhile, hnd]

/-- C14: `imap_get_literal_count` fails exactly when the line holds no `{`.
Otherwise it succeeds, and the scan stops at the first character after the
first `{` that is not a digit; the count is the value of the maximal run of
digits directly after that `{` converted to an `int`, which for a value
below `2 ^ 31` is the decimal value itself (0 for an empty run).  On
`* 12 FETCH (BODY[] {45}` the count is 45 and the stop position is that of
the closing brace. -/
theorem literal_count_spec (buf : List Char) :
    (imap_get_literal_count buf = none ↔ '{' ∉ cstr buf) ∧
    (∀ pre rest, buf = pre ++ '{' :: rest → (∀ x ∈ pre, x ≠ '{' ∧ x ≠ '\x00') →
      imap_get_literal_count buf =
        some { bytes := int_of_long
                 (strtol_clamp (decimalValue (rest.takeWhile Char.isDigit) : Int))
               stop := pre.length + 1 + (rest.takeWhile Char.isDigit).length } ∧
      (decimalValue (rest.takeWhile Char.isDigit) < 2147483648 →
        imap_get_literal_count buf =
          some { bytes := (decimalValue (rest.takeWhile Char.isDigit) : Int)
                 stop := pre.length + 1 + (rest.takeWhile Char.isDigit).length })) := by
  refine ⟨literal_count_none_iff buf, ?_⟩
  intro pre rest hb hpre
  subst hb
  refine ⟨literal_count_at pre rest hpre, ?_⟩
  intro hfit
  rw [literal_count_at pre rest hpre,
    int_of_long_of_fits _ (Int.natCast_nonneg _) (by exact_mod_cast hfit)]

theorem literal_count_spec_witness :
    imap_get_literal_count
        (['*', ' ', '1', '2', ' ', 'F', 'E', 'T', 'C', 'H', ' ', '(', 'B', 'O', 'D',
          'Y', '[', ']', ' '] ++ '{' :: ['4', '5', '}']) =
      some { bytes := (decimalValue (['4', '5', '}'].takeWhile Char.isDigit) : Int)
             stop := 19 + 1 + (['4', '5', '}'].takeWhile Char.isDigit).length } ∧
    decimalValue (['4', '5', '}'].takeWhile Char.isDigit) = 45 ∧
    (['*', ' ', '1', '2', ' ', 'F', 'E', 'T', 'C', 'H', ' ', '(', 'B', 'O', 'D',
          'Y', '[', ']', ' '] ++ '{' :: ['4', '5', '}'])[22]? = some '}' :=
  ⟨((literal_count_spec _).2
      ['*', ' ', '1', '2', ' ', 'F', 'E', 'T', 'C', 'H', ' ', '(', 'B', 'O', 'D',
        'Y', '[', ']', ' '] ['4', '5', '}'] rfl (by decide)).2 (by decide),
    by decide, by decide⟩

/-- C15 as stated fails.  `{}` and `{abc}` have no digit after the brace, yet
`imap_get_literal_count` succeeds on them, with count 0; and on
`{2147483648}` it succeeds with the negative count -2147483648, because
`atoi` returns an `int`. -/
theorem literal_count_accepts_empty_run :
    imap_get_literal_count ['{', '}'] = some { bytes := 0, stop := 1 } ∧
    imap_get_literal_count ['{', 'a', 'b', 'c', '}'] = some { bytes := 0, stop := 1 } ∧
    imap_get_literal_count ['{', '2', '1', '4', '7', '4', '8', '3', '6', '4', '8', '}'] =
      some { bytes := -2147483648, stop := 11 } := by
  decide

/-- C15 amended: `imap_get_literal_count` fails exactly when the line holds
no `{`.  Whenever it succeeds, the line has a first `{`, and when the run of
digits directly after it has a value below `2 ^ 31` the count is that value,
so it is at least 0.  A line whose first `{` is not directly followed by a
digit is accepted as well, with count 0 and the scan stopping right after
the brace. -/
theorem literal_count_invariant (buf : List Char) :
    (imap_get_literal_count buf = none ↔ '{' ∉ cstr buf) ∧
    (∀ r, imap_get_literal_count buf = some r →
      ∃ pre rest, buf = pre ++ '{' :: rest ∧ (∀ x ∈ pre, x ≠ '{' ∧ x ≠ '\x00') ∧
        (decimalValue (rest.takeWhile Char.isDigit) < 2147483648 →
          r.bytes = (decimalValue (rest.takeWhile Char.isDigit) : Int) ∧ 0 ≤ r.bytes) ∧
        ((peek rest).isDigit = false → r = { bytes := 0, stop := pre.length + 1 })) ∧
    (∀ pre rest, buf = pre ++ '{' :: rest → (∀ x ∈ pre, x ≠ '{' ∧ x ≠ '\x00') →
      (peek rest).isDigit = false →
      imap_get_literal_count buf = some { bytes := 0, stop := pre.length + 1 }) := by
  have hempty : ∀ pre rest, (∀ x ∈ pre, x ≠ '{' ∧ x ≠ '\x00') →
      (peek rest).isDigit = false →
      imap_get_literal_count (pre ++ '{' :: rest) =
        some { bytes := 0, stop := pre.length + 1 } := by
    intro pre rest hpre hnd
    rw [literal_count_at pre rest hpre, takeWhile_digit_nil rest hnd]
    simp only [decimalValue, List.reverse_nil, List.map_nil, Nat.ofDigits_nil,
      List.length_nil, Nat.add_zero]
    rfl
  refine ⟨literal_count_none_iff buf, ?_, ?_⟩
  · intro r hr
    have hsome : ∃ i, strchr_index '{' buf = some i := by
      cases hi : strchr_index '{' buf with
      | none => simp [imap_get_literal_count, hi] at hr
      | some i => exact ⟨i, rfl⟩
    obtain ⟨i, hi⟩ := hsome
    obtain ⟨pre, rest, hb, _, hpre⟩ := strchr_index_split '{' buf i hi
    subst hb
    refine ⟨pre, rest, rfl, hpre, ?_, ?_⟩
    · intro hfit
      have hat := literal_count_at pre rest hpre
      rw [hr, int_of_long_of_fits _ (Int.natCast_nonneg _)
        (by exact_mod_cast hfit)] at hat
      have hbytes : r.bytes = (decimalValue (rest.takeWhile Char.isDigit) : Int) := by
        rw [Option.some.inj hat]
      exact ⟨hbytes, by rw [hbytes]; exact Int.natCast_nonneg _⟩
    · intro hnd
      have := hempty pre rest hpre hnd
      rw [hr] at this
      exact Option.some.inj this
  · intro pre rest hb hpre hnd
    subst hb
    exact hempty pre rest hpre hnd

theorem literal_count_invariant_witness :
    imap_get_literal_count ([' '] ++ '{' :: ['a', '}']) =
      some { bytes := 0, stop := [' '].length + 1 } :=
  (literal_count_invariant _).2.2 [' '] ['a', '}'] rfl (by decide) (by decide)

/-! ## Lemmas on the word scanner -/

theorem isspace_nul : isspace '\x00' = false := by decide

theorem skip_word_of_stop (c : Char) (r : List Char)
    (h : c = '\x00' ∨ isspace c = true) : skip_word (c :: r) = c :: r := by
  rcases h with h | h
  · simp [skip_word, h]
  · simp [skip_word, h]

theorem skip_word_append :
    ∀ (t rest : List Char), (∀ c ∈ t, c ≠ '\x00' ∧ isspace c = false) →
      skip_word (t ++ rest) = skip_word rest := by
  intro t
  induction t with
  | nil => intro rest _; rfl
  | cons c t ih =>
    intro rest h
    obtain ⟨h0, h1⟩ := h c (List.mem_cons_self _ _)
    have := ih rest (fun d hd => h d (List.mem_cons_of_mem _ hd))
    simp [skip_word, h0, h1, this]

theorem SKIPWS_append :
    ∀ (ws rest : List Char), (∀ c ∈ ws, isspace c = true) →
      SKIPWS (ws ++ rest) = SKIPWS rest := by
  intro ws
  induction ws with
  | nil => intro rest _; rfl
  | cons c ws ih =>
    intro rest h
    have h1 : isspace c = true := h c (List.mem_cons_self _ _)
    have h0 : c ≠ '\x00' := by
      rintro rfl
      exact absurd h1 (by decide)
    have := ih rest (fun d hd => h d (List.mem_cons_of_mem _ hd))
    simp [SKIPWS, h0, h1, this]

theorem SKIPWS_of_not_space (l : List Char) (h : isspace (peek l) = false) :
    SKIPWS l = l := by
  cases l with
  | nil => rfl
  | cons c t =>
    rw [peek_cons] at h
    simp [SKIPWS, h]

theorem next_word_skips (t ws rest : List Char)
    (ht : ∀ c ∈ t, c ≠ '\x00' ∧ isspace c = false)
    (hne : ws ≠ []) (hws : ∀ c ∈ ws, isspace c = true)
    (hr : isspace (peek rest) = false) :
    imap_next_word (t ++ (ws ++ rest)) = rest := by
  unfold imap_next_word
  rw [skip_word_append t _ ht]
  cases ws with
  | nil => exact absurd rfl hne
  | cons c ws =>
    have hc : isspace c = true := hws c (List.mem_cons_self _ _)
    rw [List.cons_append, skip_word_of_stop c _ (Or.inr hc), ← List.cons_append,
      SKIPWS_append _ rest hws, SKIPWS_of_not_space rest hr]

theorem skip_word_suffix : ∀ l : List Char, skip_word l <:+ l := by
  intro l
  induction l with
  | nil => exact List.suffix_refl _
  | cons c l ih =>
    by_cases h : c ≠ '\x00' ∧ isspace c = false
    · rw [skip_word, if_pos h]
      exact ih.trans (List.suffix_cons c l)
    · rw [skip_word, if_neg h]

theorem SKIPWS_suffix : ∀ l : List Char, SKIPWS l <:+ l := by
  intro l
  induction l with
  | nil => exact List.suffix_refl _
  | cons c l ih =>
    by_cases h : c ≠ '\x00' ∧ isspace c = true
    · rw [SKIPWS, if_pos h]
      exact ih.trans (List.suffix_cons c l)
    · rw [SKIPWS, if_neg h]

theorem SKIPWS_head : ∀ l : List Char, isspace (peek (SKIPWS l)) = false := by
  intro l
  induction l with
  | nil => exact isspace_nul
  | cons c l ih =>
    by_cases h : c ≠ '\x00' ∧ isspace c = true
    · rw [SKIPWS, if_pos h]
      exact ih
    · rw [SKIPWS, if_neg h, peek_cons]
      by_cases h0 : c = '\x00'
      · rw [h0]; exact isspace_nul
      · simpa [h0] using h

theorem char_eq_nul_of_toNat (c : Char) (h : c.toNat = 0) : c = '\x00' := by
  have h1 : Char.ofNat c.toNat = c := Char.ofNat_toNat c
  rw [h] at h1
  exact h1.symm

theorem lowerCode_ne_zero (c : Char) (h : c ≠ '\x00') : lowerCode c ≠ 0 := by
  have h1 : c.toNat ≠ 0 := fun h0 => h (char_eq_nul_of_toNat c h0)
  unfold lowerCode
  split_ifs <;> omega

theorem strcasecmp_text_zero :
    ∀ (x y : List Char), (∀ c ∈ x, c ≠ '\x00') → (∀ c ∈ y, c ≠ '\x00') →
      (strcasecmp_text x y = 0 ↔ eqIgnoreCase x y) := by
  intro x
  induction x with
  | nil =>
    intro y _ hy
    cases y with
    | nil => simp [strcasecmp_text, eqIgnoreCase]
    | cons d t =>
      have := lowerCode_ne_zero d (hy d (List.mem_cons_self _ _))
      simp [strcasecmp_text, eqIgnoreCase, this]
  | cons c s ih =>
    intro y hx hy
    cases y with
    | nil =>
      have := lowerCode_ne_zero c (hx c (List.mem_cons_self _ _))
      simp [strcasecmp_text, eqIgnoreCase, this]
    | cons d t =>
      have hs := ih t (fun e he => hx e (List.mem_cons_of_mem _ he))
        (fun e he => hy e (List.mem_cons_of_mem _ he))
      by_cases hcd : lowerCode c = lowerCode d
      · simp only [strcasecmp_text, hcd, if_true, hs]
        simp [eqIgnoreCase, hcd]
      · have hne : (lowerCode c : Int) - (lowerCode d : Int) ≠ 0 := by
          intro h0
          apply hcd
          omega
        simp [strcasecmp_text, hcd, hne, eqIgnoreCase]

theorem mutt_strcasecmp_zero (x y : List Char) :
    mutt_strcasecmp x y = 0 ↔ eqIgnoreCase (cstr x) (cstr y) :=
  strcasecmp_text_zero (cstr x) (cstr y) (cstr_no_nul x) (cstr_no_nul y)

theorem word_loop_first_word (bound : Nat) :
    ∀ (b : List Char) (i : Nat), (firstWord b).length + i < bound →
      word_loop bound i b = (firstWord b, true) := by
  intro b
  induction b with
  | nil =>
    intro i h
    have hi : i < bound := by omega
    simp [word_loop, firstWord, hi]
  | cons c b ih =>
    intro i h
    by_cases hc : c = '\x00' ∨ isspace c = true
    · have hfw : firstWord (c :: b) = [] := by
        rcases hc with h0 | h1
        · simp [firstWord, List.takeWhile, h0]
        · simp [firstWord, List.takeWhile, h1]
      rw [hfw] at h ⊢
      have hi : i < bound := by omega
      simp [word_loop, hi, hc]
    · have hc0 : c ≠ '\x00' := fun h0 => hc (Or.inl h0)
      have hc1 : isspace c = false := by
        cases hs : isspace c with
        | false => rfl
        | true => exact absurd (Or.inr hs) hc
      have hfw : firstWord (c :: b) = c :: firstWord b := by
        simp [firstWord, List.takeWhile, hc0, hc1]
      rw [hfw] at h ⊢
      simp only [List.length_cons] at h
      have hi : i < bound := by omega
      have := ih (i + 1) (by omega)
      simp [word_loop, hi, hc0, hc1, this]

theorem firstWord_no_nul (b : List Char) : ∀ c ∈ firstWord b, c ≠ '\x00' := by
  intro c hc
  have := List.mem_takeWhile_imp hc
  intro h0
  simp [h0] at this

/-! ## The word scanner: claims C16 and C17 -/

/-- C16: when the first word of the word list is shorter than
`SHORT_STRING - 2`, `imap_wordcasecmp` returns what `mutt_strcasecmp` returns
on the candidate and that first word; so, for a `mutt_strcasecmp` that is 0
exactly on strings equal up to ASCII letter case, it reports a match exactly
when the candidate equals the first word up to case, and nothing after the
first word influences the result. -/
theorem wordcasecmp_first_word (cmp : List Char → List Char → Int)
    (SHORT_STRING : Nat) (g : Char) (a b : List Char)
    (hcmp : ∀ x y, cmp x y = 0 ↔ eqIgnoreCase (cstr x) (cstr y))
    (hshort : (firstWord b).length < SHORT_STRING - 2) :
    imap_wordcasecmp cmp SHORT_STRING g a b = cmp a (firstWord b) ∧
    (imap_wordcasecmp cmp SHORT_STRING g a b = 0 ↔
      eqIgnoreCase (cstr a) (firstWord b)) ∧
    (∀ b2, firstWord b2 = firstWord b →
      imap_wordcasecmp cmp SHORT_STRING g a b2 =
        imap_wordcasecmp cmp SHORT_STRING g a b) := by
  have hval : ∀ b2, firstWord b2 = firstWord b →
      imap_wordcasecmp cmp SHORT_STRING g a b2 = cmp a (firstWord b) := by
    intro b2 h2
    have hl := word_loop_first_word (SHORT_STRING - 2) b2 0 (by rw [h2]; omega)
    simp [imap_wordcasecmp, hl, h2]
  refine ⟨hval b rfl, ?_, ?_⟩
  · rw [hval b rfl, hcmp, cstr_of_no_nul (firstWord b) (firstWord_no_nul b)]
  · intro b2 h2
    rw [hval b2 h2, hval b rfl]

theorem wordcasecmp_first_word_witness :
    firstWord ['O', 'K', ' ', 'c', 'o', 'm', 'p', 'l', 'e', 't', 'e', 'd'] = ['O', 'K'] ∧
    imap_wordcasecmp mutt_strcasecmp 128 'x' ['O', 'K']
      ['O', 'K', ' ', 'c', 'o', 'm', 'p', 'l', 'e', 't', 'e', 'd'] = 0 ∧
    ¬ imap_wordcasecmp mutt_strcasecmp 128 'x' ['N', 'O']
      ['O', 'K', ' ', 'c', 'o', 'm', 'p', 'l', 'e', 't', 'e', 'd'] = 0 :=
  ⟨by decide,
    (wordcasecmp_first_word mutt_strcasecmp 128 'x' ['O', 'K']
      ['O', 'K', ' ', 'c', 'o', 'm', 'p', 'l', 'e', 't', 'e', 'd']
      mutt_strcasecmp_zero (by decide)).2.1.mpr (by unfold eqIgnoreCase; decide),
    by decide⟩

/-- C17: on a line made of a tag, white space, a status word, white space
and a rest that does not begin with white space, `imap_get_qualifier`
returns exactly the rest; and `imap_next_word` always returns a suffix of
its argument that is empty or begins with a character that is not white
space. -/
theorem get_qualifier_rest (tag w1 status w2 rest s : List Char)
    (htne : tag ≠ []) (htag : ∀ c ∈ tag, c ≠ '\x00' ∧ isspace c = false)
    (hw1ne : w1 ≠ []) (hw1 : ∀ c ∈ w1, isspace c = true)
    (hsne : status ≠ []) (hst : ∀ c ∈ status, c ≠ '\x00' ∧ isspace c = false)
    (hw2ne : w2 ≠ []) (hw2 : ∀ c ∈ w2, isspace c = true)
    (hrest : isspace (peek rest) = false) :
    imap_get_qualifier (tag ++ (w1 ++ (status ++ (w2 ++ rest)))) = rest ∧
    imap_next_word s <:+ s ∧
    (imap_next_word s = [] ∨
      ∃ c t, imap_next_word s = c :: t ∧ isspace c = false) := by
  have _ := htne
  refine ⟨?_, ?_, ?_⟩
  · unfold imap_get_qualifier
    have hhead : isspace (peek (status ++ (w2 ++ rest))) = false := by
      cases status with
      | nil => exact absurd rfl hsne
      | cons c t =>
        rw [List.cons_append, peek_cons]
        exact (hst c (List.mem_cons_self _ _)).2
    rw [next_word_skips tag w1 _ htag hw1ne hw1 hhead,
      next_word_skips status w2 rest hst hw2ne hw2 hrest]
  · exact (SKIPWS_suffix _).trans (skip_word_suffix s)
  · have hh := SKIPWS_head (skip_word s)
    unfold imap_next_word
    cases hr : SKIPWS (skip_word s) with
    | nil => exact Or.inl rfl
    | cons c t =>
      right
      rw [hr, peek_cons] at hh
      exact ⟨c, t, rfl, hh⟩

theorem get_qualifier_rest_witness :
    imap_get_qualifier (['a', '1'] ++ ([' '] ++ (['N', 'O'] ++ ([' ', ' '] ++
      ['[', 'T', ']', ' ', 'x'])))) = ['[', 'T', ']', ' ', 'x'] :=
  (get_qualifier_rest ['a', '1'] [' '] ['N', 'O'] [' ', ' ']
    ['[', 'T', ']', ' ', 'x'] [] (by decide) (by decide) (by decide) (by decide)
    (by decide) (by decide) (by decide) (by decide) (by decide)).1

/-! ## Lemmas on `imap_wait_keepalive` -/

theorem wait_loop_flags (check : Options → Options) (T : Int)
    (hcheck : ∀ o, (check o).OPTIMAPPASSIVE = o.OPTIMAPPASSIVE ∧
      (check o).OPTKEEPQUIET = o.OPTKEEPQUIET) :
    ∀ (n : Nat) (status rc : Int) (s : Session),
      s.opts.OPTIMAPPASSIVE = true → s.opts.OPTKEEPQUIET = true →
      (∀ o ∈ s.waits, o.OPTIMAPPASSIVE = true ∧ o.OPTKEEPQUIET = true) →
      ∃ s2, wait_loop check T (expiriesThenExit n status) rc s = some (s2, status) ∧
        s2.opts.OPTIMAPPASSIVE = true ∧ s2.opts.OPTKEEPQUIET = true ∧
        (∀ o ∈ s2.waits, o.OPTIMAPPASSIVE = true ∧ o.OPTKEEPQUIET = true) ∧
        s2.waits.length = s.waits.length + n + 1 := by
  intro n
  induction n with
  | zero =>
    intro status rc s hp hk hw
    refine ⟨{ opts := s.opts, log := s.log ++ [Step.wait], waits := s.waits ++ [s.opts] },
      by simp [expiriesThenExit, wait_loop], hp, hk, ?_, by simp⟩
    intro o ho
    rcases List.mem_append.mp ho with h | h
    · exact hw o h
    · rw [List.mem_singleton] at h
      rw [h]; exact ⟨hp, hk⟩
  | succ n ih =>
    intro status rc s hp hk hw
    have hw2 : ∀ o ∈ s.waits ++ [s.opts],
        o.OPTIMAPPASSIVE = true ∧ o.OPTKEEPQUIET = true := by
      intro o ho
      rcases List.mem_append.mp ho with h | h
      · exact hw o h
      · rw [List.mem_singleton] at h
        rw [h]; exact ⟨hp, hk⟩
    have hexp : expiriesThenExit (n + 1) status =
        WaitResult.eintr :: expiriesThenExit n status := by
      simp [expiriesThenExit, List.replicate_succ]
    rw [hexp]
    by_cases hm : s.opts.OPTMSGERR = true
    · obtain ⟨s2, h1, h2, h3, h4, h5⟩ := ih status rc
        { opts := s.opts, log := s.log ++ [Step.wait] ++ [Step.alarm (keepalive_timeout T)],
          waits := s.waits ++ [s.opts] } hp hk hw2
      refine ⟨s2, ?_, h2, h3, h4, ?_⟩
      · simpa [wait_loop, hm] using h1
      · simp only [List.length_append, List.length_singleton] at h5
        omega
    · obtain ⟨s2, h1, h2, h3, h4, h5⟩ := ih status rc
        { opts := check s.opts,
          log := s.log ++ [Step.wait] ++ [Step.poll] ++ [Step.alarm (keepalive_timeout T)],
          waits := s.waits ++ [s.opts] }
        (by rw [(hcheck s.opts).1]; exact hp) (by rw [(hcheck s.opts).2]; exact hk) hw2
      refine ⟨s2, ?_, h2, h3, h4, ?_⟩
      · simpa [wait_loop, hm] using h1
      · simp only [List.length_append, List.length_singleton] at h5
        omega

/-- The calls made at one expiry of the timeout, for a given value of
`OPTMSGERR`. -/
theorem wait_loop_log (check : Options → Options) (T : Int)
    (hcheck : ∀ o, (check o).OPTMSGERR = o.OPTMSGERR) :
    ∀ (n : Nat) (status rc : Int) (s : Session),
      ∃ s2, wait_loop check T (expiriesThenExit n status) rc s = some (s2, status) ∧
        s2.opts.OPTMSGERR = s.opts.OPTMSGERR ∧
        s2.log = s.log ++ (repeatBlock n
          (if s.opts.OPTMSGERR then [Step.wait, Step.alarm (keepalive_timeout T)]
           else [Step.wait, Step.poll, Step.alarm (keepalive_timeout T)]) ++
          [Step.wait]) := by
  intro n
  induction n with
  | zero =>
    intro status rc s
    exact ⟨{ opts := s.opts, log := s.log ++ [Step.wait], waits := s.waits ++ [s.opts] },
      by simp [expiriesThenExit, wait_loop], rfl, by simp [repeatBlock]⟩
  | succ n ih =>
    intro status rc s
    have hexp : expiriesThenExit (n + 1) status =
        WaitResult.eintr :: expiriesThenExit n status := by
      simp [expiriesThenExit, List.replicate_succ]
    rw [hexp]
    by_cases hm : s.opts.OPTMSGERR = true
    · obtain ⟨s2, h1, h2, h3⟩ := ih status rc
        { opts := s.opts, log := s.log ++ [Step.wait] ++ [Step.alarm (keepalive_timeout T)],
          waits := s.waits ++ [s.opts] }
      refine ⟨s2, ?_, h2, ?_⟩
      · simpa [wait_loop, hm] using h1
      · rw [h3]
        simp [hm, repeatBlock]
    · obtain ⟨s2, h1, h2, h3⟩ := ih status rc
        { opts := check s.opts,
          log := s.log ++ [Step.wait] ++ [Step.poll] ++ [Step.alarm (keepalive_timeout T)],
          waits := s.waits ++ [s.opts] }
      refine ⟨s2, ?_, ?_, ?_⟩
      · simpa [wait_loop, hm] using h1
      · rw [h2]; exact hcheck s.opts
      · rw [h3]
        simp [hm, hcheck s.opts, repeatBlock]

theorem count_poll_repeat (T : Int) (n : Nat) :
    (repeatBlock n [Step.wait, Step.poll, Step.alarm T]).count Step.poll = n ∧
    (repeatBlock n [Step.wait, Step.alarm T]).count Step.poll = 0 := by
  induction n with
  | zero => simp [repeatBlock]
  | succ n ih =>
    obtain ⟨h1, h2⟩ := ih
    constructor
    · simp only [repeatBlock, List.count_append, h1]
      simp [List.count_cons]
      omega
    · simp only [repeatBlock, List.count_append, h2]
      simp [List.count_cons]

/-! ## The wait helper and the capacity counter: claims C18 to C20 -/

/-- C18 as stated fails: when `OPTKEEPQUIET` is set before the call it is
clear after the call, because `imap_wait_keepalive` clears it without having
saved it. -/
theorem wait_keepalive_clears_keepquiet :
    (imap_wait_keepalive (fun o => o) 60 0 (expiriesThenExit 0 0)
        { OPTIMAPPASSIVE := false, OPTKEEPQUIET := true, OPTMSGERR := false }).map
      (fun r => r.1.opts.OPTKEEPQUIET) = some false := by
  decide

/-- C18 amended: for every initial value of the flags and every number of
timeout interruptions followed by completion of the process, when
`mutt_buffy_check` leaves `OPTIMAPPASSIVE` and `OPTKEEPQUIET` alone, both
flags are set at every call of `waitpid`, and after the return
`OPTIMAPPASSIVE` has the value it had before the call and `OPTKEEPQUIET` is
clear. -/
theorem wait_keepalive_flags (check : Options → Options) (T rc0 status : Int)
    (n : Nat) (opts : Options)
    (hcheck : ∀ o, (check o).OPTIMAPPASSIVE = o.OPTIMAPPASSIVE ∧
      (check o).OPTKEEPQUIET = o.OPTKEEPQUIET) :
    ∃ s, imap_wait_keepalive check T rc0 (expiriesThenExit n status) opts =
        some (s, status) ∧
      s.waits.length = n + 1 ∧
      (∀ o ∈ s.waits, o.OPTIMAPPASSIVE = true ∧ o.OPTKEEPQUIET = true) ∧
      s.opts.OPTIMAPPASSIVE = opts.OPTIMAPPASSIVE ∧
      s.opts.OPTKEEPQUIET = false := by
  obtain ⟨s2, h1, h2, _, h4, h5⟩ := wait_loop_flags check T hcheck n status rc0
    { opts := { OPTIMAPPASSIVE := true, OPTKEEPQUIET := true,
                OPTMSGERR := opts.OPTMSGERR }
      log := [Step.alarm (keepalive_timeout T)]
      waits := [] } rfl rfl (by simp)
  refine ⟨{ opts :=
              { OPTIMAPPASSIVE :=
                  if opts.OPTIMAPPASSIVE then s2.opts.OPTIMAPPASSIVE else false
                OPTKEEPQUIET := false
                OPTMSGERR := s2.opts.OPTMSGERR }
            log := s2.log ++ [Step.alarm 0]
            waits := s2.waits },
    by simp only [imap_wait_keepalive, h1], ?_, h4, ?_, rfl⟩
  · simpa using h5
  · cases hp : opts.OPTIMAPPASSIVE <;> simp [h2]

theorem wait_keepalive_flags_witness :
    ∃ s, imap_wait_keepalive (fun o => o) 30 0 (expiriesThenExit 2 9)
        { OPTIMAPPASSIVE := true, OPTKEEPQUIET := false, OPTMSGERR := false } =
        some (s, 9) ∧
      s.waits.length = 2 + 1 ∧
      (∀ o ∈ s.waits, o.OPTIMAPPASSIVE = true ∧ o.OPTKEEPQUIET = true) ∧
      s.opts.OPTIMAPPASSIVE = true ∧
      s.opts.OPTKEEPQUIET = false :=
  wait_keepalive_flags (fun o => o) 30 0 9 2
    { OPTIMAPPASSIVE := true, OPTKEEPQUIET := false, OPTMSGERR := false }
    (fun _ => ⟨rfl, rfl⟩)

/-- C19 as stated fails: with `OPTMSGERR` set, one expiry of the timeout
re-arms the alarm without calling `mutt_buffy_check`. -/
theorem wait_keepalive_msgerr_skips_poll :
    (imap_wait_keepalive (fun o => o) 60 0 (expiriesThenExit 1 0)
        { OPTIMAPPASSIVE := false, OPTKEEPQUIET := false, OPTMSGERR := true }).map
      (fun r => (r.1.log, r.1.log.count Step.poll)) =
      some ([Step.alarm 60, Step.wait, Step.alarm 60, Step.wait, Step.alarm 0], 0) := by
  decide

/-- C19 amended: when the process completes after exactly `n` expiries of
the timeout and `mutt_buffy_check` leaves `OPTMSGERR` unchanged,
`imap_wait_keepalive` returns the exit status, and at each expiry it calls
`mutt_buffy_check` once if `OPTMSGERR` is clear, and not at all if it is
set, and then re-arms the timeout; so the callback is invoked `n` times with
`OPTMSGERR` clear and never with it set.  The timeout is `ImapCheckTimeout`
when that is positive and 60 otherwise. -/
theorem wait_keepalive_polls (check : Options → Options)
    (ImapCheckTimeout rc0 status : Int) (n : Nat) (opts : Options)
    (hcheck : ∀ o, (check o).OPTMSGERR = o.OPTMSGERR) :
    ∃ s, imap_wait_keepalive check ImapCheckTimeout rc0 (expiriesThenExit n status)
        opts = some (s, status) ∧
      s.log = Step.alarm (if ImapCheckTimeout > 0 then ImapCheckTimeout else 60) ::
        (repeatBlock n
          (if opts.OPTMSGERR then
            [Step.wait, Step.alarm (if ImapCheckTimeout > 0 then ImapCheckTimeout else 60)]
           else
            [Step.wait, Step.poll,
             Step.alarm (if ImapCheckTimeout > 0 then ImapCheckTimeout else 60)]) ++
          [Step.wait, Step.alarm 0]) ∧
      s.log.count Step.poll = (if opts.OPTMSGERR then 0 else n) := by
  obtain ⟨s2, h1, _, h3⟩ := wait_loop_log check ImapCheckTimeout hcheck n status rc0
    { opts := { OPTIMAPPASSIVE := true, OPTKEEPQUIET := true,
                OPTMSGERR := opts.OPTMSGERR }
      log := [Step.alarm (keepalive_timeout ImapCheckTimeout)]
      waits := [] }
  obtain ⟨hc1, hc2⟩ := count_poll_repeat (keepalive_timeout ImapCheckTimeout) n
  refine ⟨{ opts :=
              { OPTIMAPPASSIVE :=
                  if opts.OPTIMAPPASSIVE then s2.opts.OPTIMAPPASSIVE else false
                OPTKEEPQUIET := false
                OPTMSGERR := s2.opts.OPTMSGERR }
            log := s2.log ++ [Step.alarm 0]
            waits := s2.waits },
    by simp only [imap_wait_keepalive, h1], ?_, ?_⟩
  · simp only [h3]
    simp [keepalive_timeout]
  · simp only [h3]
    cases hm : opts.OPTMSGERR
    · simp [List.count_append, List.count_cons, hc1]
    · simp [List.count_append, List.count_cons, hc2]

theorem wait_keepalive_polls_witness :
    ∃ s, imap_wait_keepalive (fun o => o) 0 7 (expiriesThenExit 2 5)
        { OPTIMAPPASSIVE := false, OPTKEEPQUIET := false, OPTMSGERR := false } =
        some (s, 5) ∧
      s.log = Step.alarm (if (0 : Int) > 0 then 0 else 60) ::
        (repeatBlock 2
          (if false then
            [Step.wait, Step.alarm (if (0 : Int) > 0 then 0 else 60)]
           else
            [Step.wait, Step.poll, Step.alarm (if (0 : Int) > 0 then 0 else 60)]) ++
          [Step.wait, Step.alarm 0]) ∧
      s.log.count Step.poll = (if false then 0 else 2) :=
  wait_keepalive_polls (fun o => o) 0 7 5 2
    { OPTIMAPPASSIVE := false, OPTKEEPQUIET := false, OPTMSGERR := false }
    (fun _ => rfl)

/-- C20 (refuted on the code): the counter `len` of `imap_quote_string`
wraps.  With capacity 3 and a source consisting of one `"`, `len` is 1 when
the quote is read, `len -= 2` gives `2 ^ 64 - 1` on a 64-bit `size_t`, the
test `!len` does not stop the loop, and 2 characters are stored between the
quotes where `capacity - 2` is 1. -/
theorem quote_counter_wraps :
    size_sub 64 3 2 = 1 ∧
    quote_len_trace 64 (size_sub 64 3 2) ['"'] = [2 ^ 64 - 1] ∧
    quote_loop 64 (size_sub 64 3 2) ['"'] = ['\\', '"'] ∧
    ¬ (quote_loop 64 (size_sub 64 3 2) ['"']).length ≤ 3 - 2 := by
  decide

end Imap
